import Mathlib

/-!
Shallow embedding of the chess rules engine in src/board.py.

Conventions used throughout:
- Python single-character strings (piece letters, the capture marker, file and
  rank characters) are embedded as Char; longer strings as String.
- The 64-cell piece list is a List Char in the same rank-major order as the
  source (index 0 = a1), '.' for an empty cell.
- Places where the Python code would raise an exception are totalised: a
  function returns Option and yields none, or a Bool-valued check yields false,
  exactly at the raising inputs.  Each such spot carries a comment.  No claim
  below depends on the value chosen at a raising input.
-/

namespace Chess

inductive Player where
  | white
  | black
deriving DecidableEq, Repr

def getOpponent : Player → Player
  | .white => .black
  | .black => .white

/-- The case-encoding of piece ownership: upper case for White, lower for Black. -/
def formatPiece (piece : Char) (player : Player) : Char :=
  match player with
  | .white => piece.toUpper
  | .black => piece.toLower

/-- Owner of a board cell: upper-case cells belong to White, lower-case to
Black, the empty cell '.' to nobody. -/
def getPieceOwner (piece : Char) : Option Player :=
  if piece.isUpper then some Player.white
  else if piece.isLower then some Player.black
  else none

def CASTLINGS : List String := ["0-0", "0-0-0"]
def PIECES : List Char := ['R', 'N', 'B', 'Q', 'K']
def FILES : List Char := ['a', 'b', 'c', 'd', 'e', 'f', 'g', 'h']
def RANKS : List Char := ['1', '2', '3', '4', '5', '6', '7', '8']

/-- A board square; the source validates 0 ≤ file, rank < 8 at construction and
all constructors below only build squares in that range. -/
structure Square where
  file : Nat
  rank : Nat
deriving DecidableEq, Repr

def Square.index (s : Square) : Nat := s.rank * 8 + s.file

def Square.name (s : Square) : String :=
  ⟨[FILES.getD s.file '?', RANKS.getD s.rank '?']⟩

def squareOfIndex (i : Nat) : Square := ⟨i % 8, i / 8⟩

/-- Square construction from an algebraic name; the source lower-cases the name
and raises ValueError when it is not a valid square name (modelled as none). -/
def Square.ofName (s : String) : Option Square :=
  match s.toList with
  | [f, r] =>
    match FILES.indexOf? f.toLower, RANKS.indexOf? r.toLower with
    | some fi, some ri => some ⟨fi, ri⟩
    | _, _ => none
  | _ => none

/-- Square.valid_square on a name: membership in SQUARE_NAMES, with no
lower-casing (unlike the constructor). -/
def validSquareName (s : String) : Bool :=
  match s.toList with
  | [f, r] => FILES.contains f && RANKS.contains r
  | _ => false

/-- Square plus a (file, rank) offset, or none when the result leaves the board. -/
def Square.add (s : Square) (d : Int × Int) : Option Square :=
  let f : Int := (s.file : Int) + d.1
  let r : Int := (s.rank : Int) + d.2
  if 0 ≤ f ∧ f < 8 ∧ 0 ≤ r ∧ r < 8 then some ⟨f.toNat, r.toNat⟩ else none

/-- Chebyshev distance between squares. -/
def Square.dist (a b : Square) : Nat :=
  max ((a.file : Int) - (b.file : Int)).natAbs ((a.rank : Int) - (b.rank : Int)).natAbs

/-- The Move dataclass: all fields optional, defaulting to None. -/
structure Move where
  castling : Option String := none
  capture : Option Char := none
  piece : Option Char := none
  src : Option String := none
  dest : Option String := none
  promotion : Option Char := none
deriving DecidableEq, Repr

/-- Move.__bool__: a move is present iff its castling or destination is set. -/
def Move.present (m : Move) : Bool :=
  m.castling.isSome || m.dest.isSome

def emptyMove : Move := {}

/-! ### parse_move

The source matches the input against two anchored regular expressions,
first

  (piece [RNBQK])? (src (file|rank|square))? (capture x)? (dest square) dollar

and on failure

  (src (file|rank|square))? (capture x)? (dest square) (promotion [RNBQK])? dollar

returning the empty Move when neither matches.  The embedding enumerates the
candidate splits of the input in exactly the backtracking order of the regex
engine (each optional group greedily present before absent, the src
alternation trying file, then rank, then square) and keeps the first split
that consumes the whole input.  Python's dollar anchor also matches just
before a single trailing newline, which endOfInput reproduces. -/

def isPieceChar (c : Char) : Bool := PIECES.contains c
def isFileChar (c : Char) : Bool := FILES.contains c
def isRankChar (c : Char) : Bool := RANKS.contains c

def pieceCandidates : List Char → List (Option Char × List Char)
  | [] => [(none, [])]
  | c :: rest =>
    if isPieceChar c then [(some c, rest), (none, c :: rest)] else [(none, c :: rest)]

def srcCandidates : List Char → List (Option String × List Char)
  | [] => [(none, [])]
  | c :: rest =>
    (if isFileChar c then [(some ⟨[c]⟩, rest)] else []) ++
    (if isRankChar c then [(some ⟨[c]⟩, rest)] else []) ++
    (match rest with
     | r :: rest2 => if isFileChar c && isRankChar r then [(some ⟨[c, r]⟩, rest2)] else []
     | [] => []) ++
    [(none, c :: rest)]

def captureCandidates : List Char → List (Option Char × List Char)
  | 'x' :: rest => [(some 'x', rest), (none, 'x' :: rest)]
  | cs => [(none, cs)]

def promotionCandidates : List Char → List (Option Char × List Char)
  | [] => [(none, [])]
  | c :: rest =>
    if isPieceChar c then [(some c, rest), (none, c :: rest)] else [(none, c :: rest)]

/-- The dollar anchor of re: end of input, or just before a trailing newline. -/
def endOfInput : List Char → Bool
  | [] => true
  | ['\n'] => true
  | _ => false

/-- Consume a destination square (one file character then one rank character). -/
def destTake : List Char → Option (String × List Char)
  | f :: r :: rest => if isFileChar f && isRankChar r then some (⟨[f, r]⟩, rest) else none
  | _ => none

def tryNormal (cs : List Char) : Option Move :=
  (pieceCandidates cs).findSome? fun pc =>
    (srcCandidates pc.2).findSome? fun sc =>
      (captureCandidates sc.2).findSome? fun cc =>
        match destTake cc.2 with
        | some (d, rest) =>
          if endOfInput rest then
            some { piece := pc.1, src := sc.1, capture := cc.1, dest := some d }
          else none
        | none => none

def tryPromotion (cs : List Char) : Option Move :=
  (srcCandidates cs).findSome? fun sc =>
    (captureCandidates sc.2).findSome? fun cc =>
      match destTake cc.2 with
      | some (d, rest) =>
        (promotionCandidates rest).findSome? fun pr =>
          if endOfInput pr.2 then
            some { src := sc.1, capture := cc.1, dest := some d, promotion := pr.1 }
          else none
      | none => none

def parseMove (s : String) : Move :=
  if CASTLINGS.contains s then { castling := some s }
  else
    match tryNormal s.toList with
    | some m => m
    | none =>
      match tryPromotion s.toList with
      | some m => m
      | none => {}

/-! ### Movement tables and player-indexed constants -/

def KNIGHT_MOVES : List (Int × Int) := [(-2,-1), (-2,1), (-1,2), (1,2), (2,1), (2,-1), (1,-2), (-1,-2)]
def LATERAL_MOVES : List (Int × Int) := [(-1,0), (0,-1), (0,1), (1,0)]
def DIAGONAL_MOVES : List (Int × Int) := [(-1,-1), (-1,1), (1,-1), (1,1)]
def KING_MOVES : List (Int × Int) := LATERAL_MOVES ++ DIAGONAL_MOVES

def pushDirection : Player → Int
  | .white => 1
  | .black => -1

/-- Zero-indexed rank from which a pawn may start (the source comment: rank
index 0 is rank '1'). -/
def pawnRank : Player → Nat
  | .white => 1
  | .black => 6

def backRank : Player → Nat
  | .white => 0
  | .black => 7

/-- King and rook destination names per castling variant (the source only ever
looks this table up at the two CASTLINGS keys). -/
def castlingEndSquares (p : Player) (c : String) : String × String :=
  match p with
  | .white => if c = "0-0" then ("g1", "f1") else ("c1", "d1")
  | .black => if c = "0-0" then ("g8", "f8") else ("c8", "d8")

/-! ### Board state -/

/-- Board state: the 64-cell rank-major piece list (index 0 = a1), active
player, en passant target, the four castling-availability entries of the
_available_castlings dict (value = tracked rook file tag, 'H','A','h','a' as
assigned by the constructor), half-move clock and full-move number. -/
structure Board where
  board : List Char
  active : Player
  enPassant : Option Square
  castleK : Option Char
  castleQ : Option Char
  castlek : Option Char
  castleq : Option Char
  fiftyMoveClock : Nat
  moveNumber : Nat
deriving DecidableEq, Repr

instance : Inhabited Board :=
  ⟨{ board := List.replicate 64 '.', active := .white, enPassant := none,
     castleK := none, castleQ := none, castlek := none, castleq := none,
     fiftyMoveClock := 0, moveNumber := 1 }⟩

/-- Lookup in the _available_castlings dict. -/
def Board.availableCastling (b : Board) (side : Char) : Option Char :=
  if side = 'K' then b.castleK
  else if side = 'Q' then b.castleQ
  else if side = 'k' then b.castlek
  else if side = 'q' then b.castleq
  else none

/-- Board cell at a square ('.' as out-of-range default; parsed boards have
exactly 64 cells, and all squares in play are in range). -/
def Board.get (b : Board) (s : Square) : Char := b.board.getD s.index '.'

def Board.set (b : Board) (s : Square) (c : Char) : Board :=
  { b with board := b.board.set s.index c }

/-- Square of the pawn captured en passant: the target square stepped one rank
in the push direction of the opponent of the active player.  The source
asserts the target is set; stepping off the board (impossible for targets
created by a double push) would make the source index with None and raise. -/
def Board.enPassantPawn (b : Board) : Option Square :=
  match b.enPassant with
  | none => none
  | some ep => ep.add (0, pushDirection (getOpponent b.active))

/-! ### Threat relation -/

def sgn (x : Int) : Int := if x = 0 then 0 else if x < 0 then -1 else 1

/-- Scan from cur towards dest one dv-step at a time; true when dest is reached
with only empty cells strictly in between.  Fuel 8 bounds the walk by the
board dimension; the source's while loop always terminates because it is only
entered with src and dest aligned along dv. -/
def Board.slideReaches (b : Board) (dv : Int × Int) (dest : Square) : Nat → Option Square → Bool
  | _, none => false
  | 0, some _ => false
  | fuel + 1, some cur =>
    if cur = dest then true
    else if b.get cur ≠ '.' then false
    else b.slideReaches dv dest fuel (cur.add dv)

/-- The threatens relation of the source.  Note the knight case: the source
computes dest - (src._file, src._rank), an Optional Square, and tests
membership in KNIGHT_MOVES, a list of (int, int) tuples; Square equality
returns False for any non-Square operand and None equals no tuple, so the
membership test is False for every input and knights never threaten. -/
def Board.threatens (b : Board) (src dest : Square) : Bool :=
  if b.get src = '.' then false
  else if getPieceOwner (b.get src) = getPieceOwner (b.get dest) then false
  else
    let piece := (b.get src).toUpper
    if piece = 'K' then src.dist dest = 1
    else if piece = 'N' then false
    else if piece = 'P' then
      match getPieceOwner (b.get src) with
      | some srcOwner =>
        if src.dist dest = 1 then
          if (dest.rank : Int) - (src.rank : Int) ≠ pushDirection srcOwner then false
          else ((dest.file : Int) - (src.file : Int)).natAbs = 1
        else false
      | none => false
    else
      let lateralOk := src.file = dest.file ∨ src.rank = dest.rank
      let diagOk := ((src.file : Int) - (dest.file : Int)).natAbs
                  = ((src.rank : Int) - (dest.rank : Int)).natAbs
      if piece = 'R' ∧ ¬ lateralOk then false
      else if piece = 'B' ∧ ¬ diagOk then false
      else if piece = 'Q' ∧ ¬ (lateralOk ∨ diagOk) then false
      else if piece = 'R' ∨ piece = 'B' ∨ piece = 'Q' then
        let dv := (sgn ((dest.file : Int) - (src.file : Int)),
                   sgn ((dest.rank : Int) - (src.rank : Int)))
        b.slideReaches dv dest 8 (src.add dv)
      else false

/-- Any cell holding a piece of the given player that threatens the square (the
source collects the attacker set and tests ownership; parsed boards have
exactly 64 cells, which the index range mirrors). -/
def Board.isThreatenedBy (b : Board) (square : Square) (player : Player) : Bool :=
  let owner := getPieceOwner (b.get square)
  (List.range 64).any fun i =>
    let piece := b.board.getD i '.'
    if piece = '.' ∨ getPieceOwner piece = owner then false
    else b.threatens (squareOfIndex i) square && (getPieceOwner piece = some player)

/-- Check test for a player: the first occurrence of that player's king is
threatened by the opponent.  The source raises when the king is absent; every
call site relevant to the claims below guards king presence. -/
def Board.isInCheck (b : Board) (player : Player) : Bool :=
  let king := formatPiece 'K' player
  match b.board.findIdx? (· = king) with
  | none => false
  | some i => b.isThreatenedBy (squareOfIndex i) (getOpponent player)

/-- Board legality after a simulated move: both kings present and the player
who just moved (the opponent of the player to move) is not in check. -/
def Board.isInLegalState (b : Board) : Bool :=
  if ¬ (b.board.contains 'k' ∧ b.board.contains 'K') then false
  else ¬ b.isInCheck (getOpponent b.active)

/-! ### Pseudo-legality -/

/-- The push cases of the pawn branch of __is_pseudo_legal, once the square in
front of the pawn (mid) exists; reached only with src and dest on one file. -/
def Board.pawnPushPseudoLegal (b : Board) (src dest : Square) (srcOwner : Player)
    (mid : Square) : Bool :=
  if b.get mid ≠ '.' then false
  else if src.dist dest = 1 then
    decide ((dest.rank : Int) - (src.rank : Int) = pushDirection srcOwner)
  else if src.dist dest = 2 then
    if ¬ (src.rank = backRank srcOwner ∨ src.rank = pawnRank srcOwner) then false
    else if b.get dest ≠ '.' then false
    else decide ((dest.rank : Int) - (src.rank : Int) = 2 * pushDirection srcOwner)
  else false

/-- The pawn branch of __is_pseudo_legal for a pawn owned by srcOwner. -/
def Board.pawnPseudoLegal (b : Board) (src dest : Square) (srcOwner : Player) : Bool :=
  let destOwner := getPieceOwner (b.get dest)
  let opp := getOpponent srcOwner
  if b.threatens src dest ∧ (destOwner = some opp ∨ b.enPassant = some dest) then true
  else if dest.file ≠ src.file then false
  else
    match src.add (0, pushDirection srcOwner) with
    | none => false   -- the source would index with None and raise
    | some mid => b.pawnPushPseudoLegal src dest srcOwner mid

def Board.isPseudoLegal (b : Board) (src dest : Square) : Bool :=
  if b.get src = '.' then false
  else if getPieceOwner (b.get src) = getPieceOwner (b.get dest) then false
  else if (b.get src).toUpper = 'P' then
    match getPieceOwner (b.get src) with
    | none => false
    | some srcOwner => b.pawnPseudoLegal src dest srcOwner
  else b.threatens src dest

/-! ### Applying a move

make_move of the source is split into the castling branch, the algebraic
branch (parameterised by the already-computed disambiguation result, so that
the legality simulation below needs no recursion through disambiguation), and
the shared tail that switches the active player and advances the move number.
A raising path is modelled as none, in which case the board stays unmodified. -/

def Board.clearCastlingsFor (b : Board) (p : Player) : Board :=
  match p with
  | .white => { b with castleK := none, castleQ := none }
  | .black => { b with castlek := none, castleq := none }

/-- Clear every castling-availability entry whose tracked rook file tag equals c. -/
def Board.clearCastlingsMatching (b : Board) (c : Char) : Board :=
  { b with
    castleK := if b.castleK = some c then none else b.castleK,
    castleQ := if b.castleQ = some c then none else b.castleQ,
    castlek := if b.castlek = some c then none else b.castlek,
    castleq := if b.castleq = some c then none else b.castleq }

def Board.applyCastling (b : Board) (c : String) : Option Board := do
  -- a key other than the two CASTLINGS would raise at the end-square lookup
  if ¬ CASTLINGS.contains c then none
  else
    let side := formatPiece (if c = "0-0" then 'K' else 'Q') b.active
    let rookFileTag ← b.availableCastling side   -- None.lower() would raise
    let rankChar : Char := if b.active = Player.white then '1' else '8'
    let rookSquare ← Square.ofName ⟨[rookFileTag.toLower, rankChar]⟩
    let king := formatPiece 'K' b.active
    let ki ← b.board.findIdx? (· = king)        -- board.index raises when absent
    let kingSquare := squareOfIndex ki
    let b1 := (b.set kingSquare '.').set rookSquare '.'
    let ends := castlingEndSquares b.active c
    let kingEnd ← Square.ofName ends.1
    let rookEnd ← Square.ofName ends.2
    let b2 := (b1.set kingEnd king).set rookEnd (formatPiece 'R' b.active)
    let b3 := b2.clearCastlingsFor b.active
    return { b3 with fiftyMoveClock := b3.fiftyMoveClock + 1 }

/-- The part of the algebraic branch of make_move after the en passant pawn
removal (whose result is b1): clear then possibly re-set the en passant
target, relocate the piece, promote, revoke castling rights and advance the
half-move clock.  b carries the pre-move state (active player). -/
def Board.applyAlgebraicCore (b : Board) (m : Move) (srcSquare destSquare : Square)
    (b1 : Board) : Board :=
  -- clear, then possibly re-set, the en passant target
  let newEp : Option Square :=
    if m.piece = none ∧ ((srcSquare.rank : Int) - (destSquare.rank : Int)).natAbs = 2 then
      some ⟨srcSquare.file, (srcSquare.rank + destSquare.rank) / 2⟩
    else none
  let b2 := { b1 with enPassant := newEp }
  -- relocate the piece
  let b3 := (b2.set destSquare (b2.get srcSquare)).set srcSquare '.'
  -- promotion (default Queen) when a pawn move reaches the opponent's back rank
  let b4 :=
    if m.piece = none ∧ destSquare.rank = backRank (getOpponent b.active) then
      b3.set destSquare (formatPiece (m.promotion.getD 'Q') b.active)
    else b3
  -- castling-rights revocation and the half-move clock
  if m.piece = some 'K' then b4.clearCastlingsFor b.active
  else if m.piece = some 'R' then
    let b4a :=
      if srcSquare.rank = backRank b.active then
        b4.clearCastlingsMatching (formatPiece (FILES.getD srcSquare.file '?') b.active)
      else b4
    { b4a with fiftyMoveClock := b4a.fiftyMoveClock + 1 }
  else b4

/-- The non-castling branch of make_move.  sources is the disambiguation
result; the source takes next(iter(...)) of it (raising when empty) and
reconstructs the Square from its name, which is the identity on the valid
squares disambiguation produces. -/
def Board.applyAlgebraic (b : Board) (m : Move) (sources : List Square) : Option Board := do
  let srcSquare ← sources.head?
  let destSquare ← m.dest.bind Square.ofName
  -- en passant capture: remove the captured pawn
  let b1 ←
    if m.piece = none ∧ b.enPassant = some destSquare then
      b.enPassantPawn.map (fun eps => b.set eps '.')
    else some b
  return b.applyAlgebraicCore m srcSquare destSquare b1

/-- The tail of make_move shared by both branches: switch the active player and
advance the full-move number after Black's move.  On a raising path (none)
nothing in the source executes, so the board is returned unchanged. -/
def Board.finishMove (b : Board) (r : Option Board) : Board :=
  match r with
  | none => b
  | some nb =>
    let nb2 := { nb with active := getOpponent nb.active }
    if nb2.active = Player.white then { nb2 with moveNumber := nb2.moveNumber + 1 } else nb2

/-! ### Legality -/

/-- The explicit-source case of __disambiguate_source_squares (the only case the
legality simulation can reach, since the simulated move carries a full square
name); shares the preamble of the full function. -/
def Board.disambiguateExplicit (b : Board) (m : Move) : List Square :=
  match m.dest.bind Square.ofName with
  | none => []   -- the source asserts dest and constructs Square(dest)
  | some _ =>
    let piece := formatPiece (m.piece.getD 'P') b.active
    if ¬ b.board.contains piece then []
    else
      match m.src with
      | some srcStr =>
        if validSquareName srcStr then
          match Square.ofName srcStr with
          | some srcSquare => if b.get srcSquare = piece then [srcSquare] else []
          | none => []
        else []
      | none => []

/-- The private __is_legal: pseudo-legal, and the simulated resulting board is
in a legal state.  The simulated move carries the moving piece letter (None
for a pawn) and the full source and destination names, exactly as built by
the source. -/
def Board.isLegalSq (b : Board) (src dest : Square) : Bool :=
  if ¬ b.isPseudoLegal src dest then false
  else
    let pu := (b.get src).toUpper
    let piece : Option Char := if pu = 'P' then none else some pu
    let sim : Move := { piece := piece, src := some src.name, dest := some dest.name }
    let aftermath := b.finishMove (b.applyAlgebraic sim (b.disambiguateExplicit sim))
    aftermath.isInLegalState

/-- Collect the ray of candidate destinations in direction dv, testing each for
legality (the source scans to the board edge; blocking is handled inside the
pseudo-legality test). -/
def Board.slideDests (b : Board) (src : Square) (dv : Int × Int) : Nat → Option Square → List Square
  | _, none => []
  | 0, some _ => []
  | fuel + 1, some cur =>
    (if b.isLegalSq src cur then [cur] else []) ++ b.slideDests src dv fuel (cur.add dv)

/-- legal_moves(src): the set of legal destination squares for the piece at src. -/
def Board.legalMoves (b : Board) (src : Square) : List Square :=
  if b.get src = '.' then []
  else
    let owner? := getPieceOwner (b.get src)
    let piece := (b.get src).toUpper
    let kingDests :=
      if piece = 'K' then
        KING_MOVES.filterMap fun dv =>
          match src.add dv with
          | some s => if b.isLegalSq src s then some s else none
          | none => none
      else []
    let knightDests :=
      if piece = 'N' then
        KNIGHT_MOVES.filterMap fun dv =>
          match src.add dv with
          | some s => if b.isLegalSq src s then some s else none
          | none => none
      else []
    let pawnDests :=
      if piece = 'P' then
        match owner? with
        | some owner =>
          let dir := pushDirection owner
          (match src.add (0, dir) with
           | some pushSquare =>
             (if b.isLegalSq src pushSquare then [pushSquare] else []) ++
             (if src.rank = backRank owner ∨ src.rank = pawnRank owner then
                match pushSquare.add (0, dir) with
                | some dps => if b.isLegalSq src dps then [dps] else []
                | none => []
              else [])
           | none => []) ++
          ([(-1 : Int), 1].filterMap fun df =>
            match src.add (df, dir) with
            | some cs => if b.isLegalSq src cs then some cs else none
            | none => none)
        | none => []
      else []
    let lateralDests :=
      if piece = 'R' ∨ piece = 'Q' then
        LATERAL_MOVES.flatMap fun dv => b.slideDests src dv 8 (src.add dv)
      else []
    let diagonalDests :=
      if piece = 'B' ∨ piece = 'Q' then
        DIAGONAL_MOVES.flatMap fun dv => b.slideDests src dv 8 (src.add dv)
      else []
    kingDests ++ knightDests ++ pawnDests ++ lateralDests ++ diagonalDests

/-- The full __disambiguate_source_squares: squares holding the moving piece
that satisfy the source specifier (explicit square, rank, file, or none) and
can legally reach the destination.  A malformed specifier raises in the
source (modelled as the empty result). -/
def Board.disambiguateSourceSquares (b : Board) (m : Move) : List Square :=
  match m.dest.bind Square.ofName with
  | none => []
  | some destSquare =>
    let piece := formatPiece (m.piece.getD 'P') b.active
    if ¬ b.board.contains piece then []
    else
      match m.src with
      | some srcStr =>
        if validSquareName srcStr then
          match Square.ofName srcStr with
          | some srcSquare => if b.get srcSquare = piece then [srcSquare] else []
          | none => []
        else
          match srcStr.toList with
          | [c] =>
            if isRankChar c then
              match RANKS.indexOf? c with
              | some ri =>
                (List.range 8).filterMap fun fi =>
                  let sq : Square := ⟨fi, ri⟩
                  if b.get sq = piece ∧ (b.legalMoves sq).contains destSquare then some sq
                  else none
              | none => []
            else if isFileChar c then
              match FILES.indexOf? c with
              | some fi =>
                (List.range 8).filterMap fun ri =>
                  let sq : Square := ⟨fi, ri⟩
                  if b.get sq = piece ∧ (b.legalMoves sq).contains destSquare then some sq
                  else none
              | none => []
            else []
          | _ => []
      | none =>
        (List.range 64).filterMap fun i =>
          let sq := squareOfIndex i
          if b.board.getD i '.' = piece ∧ (b.legalMoves sq).contains destSquare then some sq
          else none

/-- make_move. -/
def Board.makeMove (b : Board) (m : Move) : Board :=
  b.finishMove
    (match m.castling with
     | some c => b.applyCastling c
     | none => b.applyAlgebraic m (b.disambiguateSourceSquares m))

/-- The castling branch of is_legal_move. -/
def Board.isLegalCastling (b : Board) (c : String) : Bool :=
  -- a castling tag outside CASTLINGS raises ValueError in the source
  if ¬ CASTLINGS.contains c then false
  else if b.isInCheck b.active then false
  else
    let opp := getOpponent b.active
    let ends := castlingEndSquares b.active c
    if (Square.ofName ends.1).any (fun s => b.isThreatenedBy s opp) then false
    else if (Square.ofName ends.2).any (fun s => b.isThreatenedBy s opp) then false
    else
      match b.board.findIdx? (· = formatPiece 'K' b.active) with
      | none => false   -- board.index raises when the king is absent
      | some ki =>
        let side := formatPiece (if c = "0-0" then 'K' else 'Q') b.active
        match b.availableCastling side with
        | none => false
        | some rookFileTag =>
          let rankChar : Char := if b.active = Player.white then '1' else '8'
          match Square.ofName ⟨[rookFileTag.toLower, rankChar]⟩ with
          | none => false
          | some rookSquare =>
            let kingSquare := squareOfIndex ki
            let lo := min kingSquare.index rookSquare.index
            let hi := max kingSquare.index rookSquare.index
            (List.range' (lo + 1) (hi - (lo + 1))).all fun i => b.board.getD i '.' = '.'

/-- The final steps of is_legal_move: unique disambiguation, the piece-letter
check (an explicit letter must match the board piece; an absent letter stands
for a pawn), and the legality simulation. -/
def Board.isLegalSources (b : Board) (m : Move) (destSquare : Square) : Bool :=
  match b.disambiguateSourceSquares m with
  | [srcSquare] =>
    if m.piece = some ((b.get srcSquare).toUpper)
        ∨ (m.piece = none ∧ (b.get srcSquare).toUpper = 'P') then
      b.isLegalSq srcSquare destSquare
    else false
  | _ => false

/-- The tail of the non-castling branch of is_legal_move, once the destination
square has been resolved: the capture-marker cross-check, then the
disambiguation, piece and simulation checks. -/
def Board.isLegalResolved (b : Board) (m : Move) (destSquare : Square) : Bool :=
  let captureOK : Bool :=
    match m.capture with
    | none => true
    | some _ =>
      if getPieceOwner (b.get destSquare) ≠ some (getOpponent b.active) then
        if m.piece ≠ none ∨ b.enPassant ≠ some destSquare then false else true
      else true
  if ¬ captureOK then false
  else b.isLegalSources m destSquare

/-- is_legal_move.  In the non-castling branch the source first asserts dest is
set and then constructs Square(dest); both raising paths are false here. -/
def Board.isLegalMove (b : Board) (m : Move) : Bool :=
  match m.castling with
  | some c => b.isLegalCastling c
  | none =>
    match m.dest.bind Square.ofName with
    | none => false
    | some destSquare => b.isLegalResolved m destSquare

/-- get_all_legal_moves. -/
def Board.getAllLegalMoves (b : Board) : List Move :=
  (CASTLINGS.filterMap fun c =>
    if b.isLegalMove (parseMove c) then some (parseMove c) else none) ++
  ((List.range 64).flatMap fun i =>
    let piece := b.board.getD i '.'
    if getPieceOwner piece ≠ some b.active then []
    else
      let sq := squareOfIndex i
      let movePiece : Option Char := if piece.toUpper = 'P' then none else some piece.toUpper
      if movePiece = none ∧ sq.rank = pawnRank (getOpponent b.active) then
        (b.legalMoves sq).flatMap fun s =>
          ['R', 'B', 'N', 'Q'].map fun promo =>
            { piece := movePiece, src := some sq.name, dest := some s.name,
              promotion := some promo }
      else
        (b.legalMoves sq).map fun s =>
          { piece := movePiece, src := some sq.name, dest := some s.name })

/-- disambiguate_move: resolve the source square to its full name and set the
capture marker from the board (none models the raising paths). -/
def Board.disambiguateMove (b : Board) (m : Move) : Option Move :=
  match m.castling with
  | some _ => some m
  | none => do
    let srcSquare ← (b.disambiguateSourceSquares m).head?
    let m1 := { m with src := some srcSquare.name }
    let destSquare ← m.dest.bind Square.ofName
    if b.get destSquare ≠ '.' then return { m1 with capture := some 'x' }
    else if m1.piece = none ∧ b.enPassant = some destSquare then
      return { m1 with capture := some 'x' }
    else return m1

/-- The minimisation loop of get_move_canonical_form: try the source
specifiers in order, skipping the empty specifier for pawn captures, and keep
the first that is legal; when none is, the full square name remains. -/
def Board.minimizeSrc (b : Board) (base : Move) : List (Option String) → Option String → Option String
  | [], last => last
  | cand :: rest, last =>
    if base.piece = none ∧ base.capture ≠ none ∧ cand = none then
      b.minimizeSrc base rest last
    else if b.isLegalMove { base with src := cand } then cand
    else b.minimizeSrc base rest cand

/-- get_move_canonical_form. -/
def Board.getMoveCanonicalForm (b : Board) (m : Move) : Option Move := do
  let maximalForm ← b.disambiguateMove m
  match maximalForm.castling with
  | some _ => return maximalForm
  | none =>
    match maximalForm.src with
    | none => none   -- unreachable: disambiguate_move always sets src
    | some srcAddr =>
      match srcAddr.toList with
      | [sf, sr] =>
        let cands : List (Option String) := [none, some ⟨[sf]⟩, some ⟨[sr]⟩, some srcAddr]
        return { maximalForm with src := b.minimizeSrc maximalForm cands (some srcAddr) }
      | _ => none   -- unpacking the source name would raise

/-! ### Position-string output (fen)

The numeric fields are written with natRepr, the embedding of str on
non-negative ints (most-significant digit first). -/

def natToDigits : Nat → Nat → List Char
  | 0, _ => []
  | fuel + 1, n =>
    if n < 10 then [Nat.digitChar n]
    else natToDigits fuel (n / 10) ++ [Nat.digitChar (n % 10)]

def natRepr (n : Nat) : String := ⟨natToDigits (n + 1) n⟩

/-- Run-length encode one board row, dots becoming digit counts (cnt is the
run of empty cells seen so far, flushed before a piece and at the end). -/
def formatRowGo : List Char → Nat → List Char
  | [], cnt => if cnt > 0 then (natRepr cnt).toList else []
  | c :: rest, cnt =>
    if c = '.' then formatRowGo rest (cnt + 1)
    else (if cnt > 0 then (natRepr cnt).toList else []) ++ c :: formatRowGo rest 0

def formatRow (row : List Char) : List Char := formatRowGo row 0

/-- Successive complete chunks of 8 cells (the source zips eight iterators,
which silently drops any incomplete final chunk). -/
def chunksOf8 : Nat → List Char → List (List Char)
  | 0, _ => []
  | fuel + 1, l => if l.length < 8 then [] else l.take 8 :: chunksOf8 fuel (l.drop 8)

/-- The slash-join of the formatted ranks. -/
def joinSlash : List (List Char) → List Char
  | [] => []
  | [r] => r
  | r :: rs => r ++ '/' :: joinSlash rs

/-- The castling field: present flags in sorted key order (K, Q, k, q is the
ASCII sort of the dict keys), or a dash when empty. -/
def castlingCharsOf (k q bk bq : Option Char) : List Char :=
  let s := (if k.isSome then ['K'] else []) ++ (if q.isSome then ['Q'] else [])
        ++ (if bk.isSome then ['k'] else []) ++ (if bq.isSome then ['q'] else [])
  if s = [] then ['-'] else s

/-- fen: export the position string, assembled as its character list. -/
def Board.fenChars (b : Board) : List Char :=
  let rows := chunksOf8 b.board.length b.board
  let placement := joinSlash (rows.reverse.map formatRow)
  let active : List Char := if b.active = Player.white then ['w'] else ['b']
  let castling := castlingCharsOf b.castleK b.castleQ b.castlek b.castleq
  let ep : List Char :=
    match b.enPassant with
    | none => ['-']
    | some sq => (sq.name).toList
  placement ++ ' ' :: (active ++ ' ' :: (castling ++ ' ' :: (ep ++ ' ' ::
    (natToDigits (b.fiftyMoveClock + 1) b.fiftyMoveClock ++ ' ' ::
     natToDigits (b.moveNumber + 1) b.moveNumber))))

def Board.fen (b : Board) : String := ⟨b.fenChars⟩

/-! ### Position-string input (the Board constructor)

Python's whitespace split is embedded as a split on space runs (the grammar
and every string in play separate the six fields by single spaces); str.split
on a slash keeps empty pieces, which splitSlash mirrors.  int() is embedded as
a plain decimal-digit reader: it agrees with int() on the canonical digit
strings the claims involve and rejects some exotic spellings (signs, inner
underscores, surrounding whitespace) that int() would accept. -/

def splitOnSpacesGo : List Char → List Char → List (List Char)
  | [], acc => if acc.isEmpty then [] else [acc.reverse]
  | c :: rest, acc =>
    if c = ' ' then (if acc.isEmpty then [] else [acc.reverse]) ++ splitOnSpacesGo rest []
    else splitOnSpacesGo rest (c :: acc)

def splitOnSpaces (cs : List Char) : List (List Char) := splitOnSpacesGo cs []

def splitSlashGo : List Char → List Char → List (List Char)
  | [], acc => [acc.reverse]
  | c :: rest, acc =>
    if c = '/' then acc.reverse :: splitSlashGo rest []
    else splitSlashGo rest (c :: acc)

def splitSlash (cs : List Char) : List (List Char) := splitSlashGo cs []

/-- Expansion of one placement character: a digit 1-8 becomes that many empty
cells, a piece letter stands for itself, anything else raises ValueError. -/
def expandFenChar (c : Char) : Option (List Char) :=
  if RANKS.contains c then some (List.replicate (c.toNat - '0'.toNat) '.')
  else if (PIECES ++ ['P']).contains c.toUpper then some [c]
  else none

def expandFen : List Char → Option (List Char)
  | [] => some []
  | c :: rest => do
    let e ← expandFenChar c
    let r ← expandFen rest
    return e ++ r

def parseNatGo : List Char → Nat → Option Nat
  | [], acc => some acc
  | c :: rest, acc =>
    if c.isDigit then parseNatGo rest (acc * 10 + (c.toNat - '0'.toNat)) else none

def parseNat (cs : List Char) : Option Nat :=
  match cs with
  | [] => none
  | _ => parseNatGo cs 0

/-- Fold the castling-rights field, assigning the tracked rook file tag per
flag exactly as the constructor does; an unknown character raises. -/
def parseCastlingGo :
    List Char → Option Char × Option Char × Option Char × Option Char →
    Option (Option Char × Option Char × Option Char × Option Char)
  | [], st => some st
  | c :: rest, (k, q, bk, bq) =>
    if c = 'K' then parseCastlingGo rest (some 'H', q, bk, bq)
    else if c = 'k' then parseCastlingGo rest (k, q, some 'h', bq)
    else if c = 'Q' then parseCastlingGo rest (k, some 'A', bk, bq)
    else if c = 'q' then parseCastlingGo rest (k, q, bk, some 'a')
    else none

/-- The Board constructor from a position string; none models every raising
path (wrong field count, unknown character, wrong cell count, bad square). -/
def parseFen (s : String) : Option Board := do
  match splitOnSpaces s.toList with
  | [boardDesc, active, castling, enPassant, clock, moveNum] => do
    let cells ← expandFen (splitSlash boardDesc).reverse.flatten
    if cells.length ≠ 64 then none
    else do
      let activePlayer ←
        if active = ['w'] then some Player.white
        else if active = ['b'] then some Player.black
        else none
      let ep ←
        if enPassant = ['-'] then some none
        else (Square.ofName ⟨enPassant⟩).map some
      let flags ←
        if castling = ['-'] then some (none, none, none, none)
        else parseCastlingGo castling (none, none, none, none)
      let fc ← parseNat clock
      let mn ← parseNat moveNum
      return { board := cells, active := activePlayer, enPassant := ep,
               castleK := flags.1, castleQ := flags.2.1,
               castlek := flags.2.2.1, castleq := flags.2.2.2,
               fiftyMoveClock := fc, moveNumber := mn }
  | _ => none

/-- Convenience: the board described by a position string (the claims that use
it also record that parsing succeeds). -/
def boardOf (s : String) : Board := (parseFen s).getD default

/-- Boards as the engine keeps them: 64 cells each a piece letter or empty, an
in-range en passant square when set, and castling flags holding the tracked
rook file exactly as the constructor and the move application write them. -/
def Board.wellFormed (b : Board) : Prop :=
  b.board.length = 64 ∧
  (∀ c ∈ b.board, c ∈ ('.' :: "RNBQKPrnbqkp".toList)) ∧
  b.enPassant.all (fun sq => decide (sq.file < 8) && decide (sq.rank < 8)) = true ∧
  (b.castleK = none ∨ b.castleK = some 'H') ∧
  (b.castleQ = none ∨ b.castleQ = some 'A') ∧
  (b.castlek = none ∨ b.castlek = some 'h') ∧
  (b.castleq = none ∨ b.castleq = some 'a')

instance (b : Board) : Decidable b.wellFormed := by
  unfold Board.wellFormed
  infer_instance

/-! ## Structural lemmas about parsing -/

theorem promotionCandidates_fst {cs : List Char} {x : Option Char × List Char}
    (h : x ∈ promotionCandidates cs) :
    x.1 = none ∨ ∃ c, x.1 = some c ∧ isPieceChar c = true := by
  match cs with
  | [] =>
    simp [promotionCandidates] at h
    subst h
    exact Or.inl rfl
  | c :: rest =>
    simp only [promotionCandidates] at h
    split at h
    · simp at h
      rcases h with h | h
      · right; exact ⟨c, by simp [h], by assumption⟩
      · left; simp [h]
    · simp at h
      left; simp [h]

/-- Every successful match of the first (normal) regular expression carries a
destination, no promotion and no castling tag. -/
theorem tryNormal_shape {cs : List Char} {m : Move} (h : tryNormal cs = some m) :
    m.dest.isSome = true ∧ m.promotion = none ∧ m.castling = none := by
  unfold tryNormal at h
  obtain ⟨pc, _, h⟩ := List.exists_of_findSome?_eq_some h
  obtain ⟨sc, _, h⟩ := List.exists_of_findSome?_eq_some h
  obtain ⟨cc, _, h⟩ := List.exists_of_findSome?_eq_some h
  split at h
  · split at h
    · cases h
      simp
    · cases h
  · cases h

/-- Every successful match of the second (promotion) regular expression
carries a destination, no piece letter, no castling tag, and a promotion that
is absent or one of the five piece letters. -/
theorem tryPromotion_shape {cs : List Char} {m : Move} (h : tryPromotion cs = some m) :
    m.dest.isSome = true ∧ m.piece = none ∧ m.castling = none ∧
      (m.promotion = none ∨ ∃ c, m.promotion = some c ∧ isPieceChar c = true) := by
  unfold tryPromotion at h
  obtain ⟨sc, _, h⟩ := List.exists_of_findSome?_eq_some h
  obtain ⟨cc, _, h⟩ := List.exists_of_findSome?_eq_some h
  split at h
  · obtain ⟨pr, hpr, h⟩ := List.exists_of_findSome?_eq_some h
    split at h
    · cases h
      refine ⟨rfl, rfl, rfl, ?_⟩
      exact promotionCandidates_fst hpr
    · cases h
  · cases h

/-- C9: parse_move is total on all input strings (it is a total function that
falls back to the empty-move sentinel rather than raising), a parsed Move is
present (truthy) iff its castling field or its destination field is set, and
whenever the presence check fails the result is exactly the empty-move
sentinel. -/
theorem c9_parse_move_total (s : String) :
    Move.present (parseMove s) = ((parseMove s).castling.isSome || (parseMove s).dest.isSome) ∧
      (Move.present (parseMove s) = false → parseMove s = emptyMove) := by
  refine ⟨rfl, ?_⟩
  intro h
  unfold parseMove at h ⊢
  by_cases hc : CASTLINGS.contains s = true
  · rw [if_pos hc] at h
    simp [Move.present] at h
  · rw [if_neg hc] at h ⊢
    rcases hn : tryNormal s.toList with - | m
    · simp only [hn] at h ⊢
      rcases hq : tryPromotion s.toList with - | m
      · simp only [hq]
        rfl
      · simp only [hq] at h
        obtain ⟨hd, -, -, -⟩ := tryPromotion_shape hq
        simp [Move.present, hd] at h
    · simp only [hn] at h
      obtain ⟨hd, -, -⟩ := tryNormal_shape hn
      simp [Move.present, hd] at h

theorem c9_parse_move_total_witness : parseMove "zz" = emptyMove :=
  (c9_parse_move_total "zz").2 (by decide)

/-- C7 (counterexample): the claim says the promotion suffix is one of
R, N, B, Q and never K, but the promotion group of the second regular
expression reuses the full piece class [RNBQK], so the input e8K parses with
promotion K. -/
theorem c7_promotion_counterexample : (parseMove "e8K").promotion = some 'K' := by decide

/-- C7 (amended): a set promotion field of a parsed move is one of the five
piece letters R, N, B, Q, K (the source's piece class, which includes K), and
a promotion is only accepted when the moving-piece letter is absent. -/
theorem c7_promotion_amended (s : String) (c : Char)
    (h : (parseMove s).promotion = some c) :
    isPieceChar c = true ∧ (parseMove s).piece = none := by
  unfold parseMove at h ⊢
  by_cases hc : CASTLINGS.contains s = true
  · rw [if_pos hc] at h
    simp at h
  · rw [if_neg hc] at h ⊢
    rcases hn : tryNormal s.toList with - | m
    · simp only [hn] at h ⊢
      rcases hq : tryPromotion s.toList with - | m
      · simp only [hq] at h
        cases h
      · simp only [hq] at h ⊢
        obtain ⟨-, hpc, -, hpr⟩ := tryPromotion_shape hq
        rcases hpr with h0 | ⟨c', hc', hpcc⟩
        · rw [h0] at h
          cases h
        · rw [hc'] at h
          cases h
          exact ⟨hpcc, hpc⟩
    · simp only [hn] at h ⊢
      obtain ⟨-, hp, -⟩ := tryNormal_shape hn
      rw [hp] at h
      cases h

theorem c7_promotion_amended_witness :
    isPieceChar 'Q' = true ∧ (parseMove "e8Q").piece = none :=
  c7_promotion_amended "e8Q" 'Q' (by decide)

/-- C10: is_legal_move never reads the promotion field (the legality
simulation applies the move without it, promoting to the default queen), so
the legality of any move, in particular of a pawn move to the back rank, is
the same for every value of the promotion field. -/
theorem c10_promotion_independence (b : Board) (m : Move) (p q : Option Char) :
    b.isLegalMove { m with promotion := p } = b.isLegalMove { m with promotion := q } := by
  cases m
  rfl

/-! ## Concrete positions -/

/-- C1: the claim (and the spec invariant) says a legal move never leaves the
mover's own king attacked, but is_legal_move accepts a pawn move written with
the explicit piece letter P (the piece-match test treats P like the absent
letter), while make_move keys the en passant pawn removal on the letter being
absent.  On the board below the en passant capture d6 is legal, yet applying
it with piece letter P skips removing the captured d5 pawn, leaving White's
king on e4 in check from that pawn. -/
theorem c1_piece_letter_pawn_move_leaves_mover_in_check :
    (parseFen "k7/8/8/3pP3/4K3/8/8/8 w - d6 0 1").isSome = true ∧
    (boardOf "k7/8/8/3pP3/4K3/8/8/8 w - d6 0 1").isLegalMove
      { piece := some 'P', dest := some "d6" } = true ∧
    ((boardOf "k7/8/8/3pP3/4K3/8/8/8 w - d6 0 1").makeMove
      { piece := some 'P', dest := some "d6" }).isInCheck Player.white = true :=
  ⟨by decide, by decide, by decide⟩

/-- C2 (counterexample): the claim says every move other than a double push,
including castling, clears the en passant target, but the castling branch of
make_move never touches it: after a legal White kingside castling the stale
target d6 from Black's preceding double push survives. -/
theorem c2_castling_keeps_en_passant_target :
    (parseFen "4k3/8/8/3p4/8/8/8/4K2R w K d6 0 1").isSome = true ∧
    (boardOf "4k3/8/8/3p4/8/8/8/4K2R w K d6 0 1").isLegalMove
      { castling := some "0-0" } = true ∧
    ((boardOf "4k3/8/8/3p4/8/8/8/4K2R w K d6 0 1").makeMove
      { castling := some "0-0" }).enPassant = some ⟨3, 5⟩ :=
  ⟨by decide, by decide, by decide⟩

/-- C3 (counterexample): the placement 44/8/8/8/8/8/8/8 has eight ranks
totalling 64 squares and parses, but the export writes maximal digit runs, so
the round trip returns a different string. -/
theorem c3_round_trip_counterexample :
    (parseFen "44/8/8/8/8/8/8/8 w - - 0 1").isSome = true ∧
    (boardOf "44/8/8/8/8/8/8/8 w - - 0 1").fen = "8/8/8/8/8/8/8/8 w - - 0 1" ∧
    "8/8/8/8/8/8/8/8 w - - 0 1" ≠ "44/8/8/8/8/8/8/8 w - - 0 1" :=
  ⟨by decide, by decide, by decide⟩

/-- C4: in r3k3/8/8/8/8/8/8/4K2R w Kq - 0 1 kingside castling is legal,
queenside castling is illegal, and after the kingside castling the exported
position string is exactly r3k3/8/8/8/8/8/8/5RK1 b q - 1 1. -/
theorem c4_castling_example :
    (parseFen "r3k3/8/8/8/8/8/8/4K2R w Kq - 0 1").isSome = true ∧
    (boardOf "r3k3/8/8/8/8/8/8/4K2R w Kq - 0 1").isLegalMove { castling := some "0-0" } = true ∧
    (boardOf "r3k3/8/8/8/8/8/8/4K2R w Kq - 0 1").isLegalMove { castling := some "0-0-0" } = false ∧
    ((boardOf "r3k3/8/8/8/8/8/8/4K2R w Kq - 0 1").makeMove
      { castling := some "0-0" }).fen = "r3k3/8/8/8/8/8/8/5RK1 b q - 1 1" :=
  ⟨by decide, by decide, by decide, by decide⟩

/-- C5: in 8/8/8/8/k2Pp2Q/8/8/3K4 b - d3 0 1 the en passant capture e4 to d3
is pseudo-legal (e4 is the black pawn, d3 the target) but is_legal_move
rejects it: simulating the capture removes the d4 pawn and exposes Black's
king on a4 to the h4 queen along the fourth rank. -/
theorem c5_en_passant_discovered_check :
    (parseFen "8/8/8/8/k2Pp2Q/8/8/3K4 b - d3 0 1").isSome = true ∧
    (boardOf "8/8/8/8/k2Pp2Q/8/8/3K4 b - d3 0 1").isPseudoLegal ⟨4, 3⟩ ⟨3, 2⟩ = true ∧
    (boardOf "8/8/8/8/k2Pp2Q/8/8/3K4 b - d3 0 1").isLegalMove
      { src := some "e4", dest := some "d3" } = false :=
  ⟨by decide, by decide, by decide⟩

/-- C6 (counterexample): the claim says a double push is never pseudo-legal
from any rank other than the pawn's home rank, but the source also admits the
back rank (its comment: pawns that start on the first rank may double push):
a white pawn on a1 may pseudo-legally jump to a3. -/
theorem c6_double_push_counterexample :
    (parseFen "7k/8/8/8/8/8/8/P6K w - - 0 1").isSome = true ∧
    (boardOf "7k/8/8/8/8/8/8/P6K w - - 0 1").get ⟨0, 0⟩ = 'P' ∧
    (⟨0, 0⟩ : Square).rank ≠ pawnRank Player.white ∧
    (boardOf "7k/8/8/8/8/8/8/P6K w - - 0 1").isPseudoLegal ⟨0, 0⟩ ⟨0, 2⟩ = true :=
  ⟨by decide, by decide, by decide, by decide⟩

/-- C8 (counterexample): the claim says distinct legal moves have distinct
canonical forms, but distinct Move values can denote the same move: the fully
specified a2a3 and the bare a3 are both accepted by is_legal_move, differ as
Move values, and canonicalise to the same form. -/
theorem c8_canonical_counterexample :
    (parseFen "7k/8/8/8/8/8/P7/7K w - - 0 1").isSome = true ∧
    (boardOf "7k/8/8/8/8/8/P7/7K w - - 0 1").isLegalMove
      { src := some "a2", dest := some "a3" } = true ∧
    (boardOf "7k/8/8/8/8/8/P7/7K w - - 0 1").isLegalMove { dest := some "a3" } = true ∧
    ({ src := some "a2", dest := some "a3" } : Move) ≠ ({ dest := some "a3" } : Move) ∧
    (boardOf "7k/8/8/8/8/8/P7/7K w - - 0 1").getMoveCanonicalForm
        { src := some "a2", dest := some "a3" }
      = (boardOf "7k/8/8/8/8/8/P7/7K w - - 0 1").getMoveCanonicalForm { dest := some "a3" } :=
  ⟨by decide, by decide, by decide, by decide, by decide⟩

/-! ## The pawn movement pattern -/

/-- A pawn never threatens a square at Chebyshev distance other than one. -/
theorem threatens_pawn_far (b : Board) (src dest : Square)
    (hpawn : (b.get src).toUpper = 'P') (hdist : src.dist dest ≠ 1) :
    b.threatens src dest = false := by
  unfold Board.threatens
  simp only [hpawn]
  split
  · rfl
  split
  · rfl
  simp +decide only [hdist, false_and, if_true, if_false]
  split <;> rfl

/-- C6 (amended): for a pawn and a destination two Chebyshev steps away,
pseudo-legality holds exactly for the straight double push in the pawn's
forward direction from the pawn rank or the back rank (the source also
admits the back rank), with the intervening and destination squares empty. -/
theorem c6_double_push_amended (b : Board) (src dest : Square) (o : Player)
    (hpawn : (b.get src).toUpper = 'P') (howner : getPieceOwner (b.get src) = some o)
    (hdist : src.dist dest = 2) :
    b.isPseudoLegal src dest = true ↔
      (dest.file = src.file ∧
       (dest.rank : Int) - (src.rank : Int) = 2 * pushDirection o ∧
       (src.rank = backRank o ∨ src.rank = pawnRank o) ∧
       (∃ mid, src.add (0, pushDirection o) = some mid ∧ b.get mid = '.') ∧
       b.get dest = '.') := by
  have hne : b.get src ≠ '.' := by
    intro hh
    rw [hh] at hpawn
    cases hpawn
  have hth : b.threatens src dest = false :=
    threatens_pawn_far b src dest hpawn (by omega)
  unfold Board.isPseudoLegal
  rw [if_neg hne]
  by_cases heq : getPieceOwner (b.get src) = getPieceOwner (b.get dest)
  · rw [if_pos heq]
    simp only [Bool.false_eq_true, false_iff]
    rintro ⟨-, -, -, -, hdempty⟩
    rw [howner, hdempty] at heq
    simp [getPieceOwner] at heq
  · rw [if_neg heq, hpawn, if_pos rfl, howner]
    show b.pawnPseudoLegal src dest o = true ↔ _
    unfold Board.pawnPseudoLegal
    simp only [hth, Bool.false_eq_true, false_and, if_false]
    by_cases hfile : dest.file ≠ src.file
    · rw [if_pos hfile]
      simp only [Bool.false_eq_true, false_iff]
      rintro ⟨hf, -⟩
      exact hfile hf
    · rw [if_neg hfile]
      push_neg at hfile
      cases hadd : src.add (0, pushDirection o) with
      | none =>
        show (false : Bool) = true ↔ _
        simp only [Bool.false_eq_true, false_iff]
        rintro ⟨-, -, -, ⟨mid, hmid, -⟩, -⟩
        cases hmid
      | some mid =>
        show b.pawnPushPseudoLegal src dest o mid = true ↔ _
        unfold Board.pawnPushPseudoLegal
        by_cases hmid : b.get mid ≠ '.'
        · rw [if_pos hmid]
          simp only [Bool.false_eq_true, false_iff]
          rintro ⟨-, -, -, ⟨mid', hmid', hmide⟩, -⟩
          injection hmid' with hmid'
          subst hmid'
          exact hmid hmide
        · rw [if_neg hmid]
          push_neg at hmid
          rw [if_neg (show ¬ src.dist dest = 1 by omega), if_pos hdist]
          by_cases hrank : src.rank = backRank o ∨ src.rank = pawnRank o
          · rw [if_neg (not_not_intro hrank)]
            by_cases hdempty : b.get dest ≠ '.'
            · rw [if_pos hdempty]
              simp only [Bool.false_eq_true, false_iff]
              rintro ⟨-, -, -, -, h5⟩
              exact hdempty h5
            · rw [if_neg hdempty]
              push_neg at hdempty
              simp only [decide_eq_true_eq]
              constructor
              · intro hdir
                exact ⟨hfile, hdir, hrank, ⟨mid, rfl, hmid⟩, hdempty⟩
              · rintro ⟨-, hdir, -, -, -⟩
                exact hdir
          · rw [if_pos hrank]
            simp only [Bool.false_eq_true, false_iff]
            rintro ⟨-, -, h3, -, -⟩
            exact hrank h3

theorem c6_double_push_amended_witness :
    (boardOf "7k/8/8/8/8/8/8/P6K w - - 0 1").isPseudoLegal ⟨0, 0⟩ ⟨0, 2⟩ = true ↔
      ((⟨0, 2⟩ : Square).file = (⟨0, 0⟩ : Square).file ∧
       ((⟨0, 2⟩ : Square).rank : Int) - ((⟨0, 0⟩ : Square).rank : Int)
         = 2 * pushDirection Player.white ∧
       ((⟨0, 0⟩ : Square).rank = backRank Player.white ∨
        (⟨0, 0⟩ : Square).rank = pawnRank Player.white) ∧
       (∃ mid, (⟨0, 0⟩ : Square).add (0, pushDirection Player.white) = some mid ∧
        (boardOf "7k/8/8/8/8/8/8/P6K w - - 0 1").get mid = '.') ∧
       (boardOf "7k/8/8/8/8/8/8/P6K w - - 0 1").get ⟨0, 2⟩ = '.') :=
  c6_double_push_amended (boardOf "7k/8/8/8/8/8/8/P6K w - - 0 1") ⟨0, 0⟩ ⟨0, 2⟩
    Player.white (by decide) (by decide) (by decide)

/-! ## Lemmas about applying a move, and C2 -/


theorem set_enPassant (b : Board) (s : Square) (c : Char) :
    (b.set s c).enPassant = b.enPassant := rfl

theorem clearCastlingsFor_enPassant (b : Board) (p : Player) :
    (b.clearCastlingsFor p).enPassant = b.enPassant := by
  cases p <;> rfl

theorem clearCastlingsMatching_enPassant (b : Board) (c : Char) :
    (b.clearCastlingsMatching c).enPassant = b.enPassant := rfl

theorem finishMove_none_enPassant (b : Board) :
    (b.finishMove none).enPassant = b.enPassant := rfl

theorem finishMove_some_enPassant (b nb : Board) :
    (b.finishMove (some nb)).enPassant = nb.enPassant := by
  unfold Board.finishMove
  dsimp only
  split <;> rfl

theorem applyCastling_enPassant {b : Board} {c : String} {nb : Board}
    (h : b.applyCastling c = some nb) : nb.enPassant = b.enPassant := by
  unfold Board.applyCastling at h
  split at h
  · cases h
  · simp only [Option.bind_eq_bind, Option.bind_eq_some] at h
    obtain ⟨tag, -, h⟩ := h
    obtain ⟨rsq, -, h⟩ := h
    obtain ⟨ki, -, h⟩ := h
    obtain ⟨ke, -, h⟩ := h
    obtain ⟨re, -, h⟩ := h
    cases h
    simp [set_enPassant, clearCastlingsFor_enPassant]

theorem makeMove_castling_enPassant (b : Board) (m : Move) (c : String)
    (hc : m.castling = some c) : (b.makeMove m).enPassant = b.enPassant := by
  unfold Board.makeMove
  simp only [hc]
  cases happ : b.applyCastling c with
  | none => exact finishMove_none_enPassant b
  | some nb =>
    rw [finishMove_some_enPassant]
    exact applyCastling_enPassant happ

end Chess

namespace Chess

theorem ofName_valid {s : String} {sq : Square} (h : Square.ofName s = some sq) :
    sq.file < 8 ∧ sq.rank < 8 := by
  unfold Square.ofName at h
  split at h
  next f r heq =>
    split at h
    next fi ri hfi hri =>
      cases h
      unfold List.indexOf? at hfi hri
      have h1 := (List.findIdx?_eq_some_iff_findIdx_eq.mp hfi).1
      have h2 := (List.findIdx?_eq_some_iff_findIdx_eq.mp hri).1
      simp [FILES, RANKS] at h1 h2
      exact ⟨h1, h2⟩
    next => cases h
  next => cases h

theorem disambiguateSourceSquares_mem {b : Board} {m : Move} {sq : Square}
    (h : sq ∈ b.disambiguateSourceSquares m) :
    sq.file < 8 ∧ sq.rank < 8 ∧ b.get sq = formatPiece (m.piece.getD 'P') b.active := by
  unfold Board.disambiguateSourceSquares at h
  rcases hdd : m.dest.bind Square.ofName with - | destSquare
  · simp only [hdd] at h
    cases h
  · simp only [hdd] at h
    by_cases hcnt : ¬ b.board.contains (formatPiece (m.piece.getD 'P') b.active) = true
    · rw [if_pos hcnt] at h
      cases h
    · rw [if_neg hcnt] at h
      rcases hms : m.src with - | srcStr
      · simp only [hms] at h
        simp only [List.mem_filterMap, List.mem_range] at h
        obtain ⟨i, hi, hf⟩ := h
        try dsimp only at hf
        split at hf
        next hcond =>
          cases hf
          unfold squareOfIndex Board.get Square.index
          refine ⟨Nat.mod_lt i (by norm_num), by dsimp only; omega, ?_⟩
          dsimp only
          have hix : i / 8 * 8 + i % 8 = i := by omega
          rw [hix]
          exact hcond.1
        next => cases hf
      · simp only [hms] at h
        by_cases hval : validSquareName srcStr = true
        · rw [if_pos hval] at h
          rcases hof : Square.ofName srcStr with - | srcSquare
          · simp only [hof] at h
            cases h
          · simp only [hof] at h
            by_cases hget : b.get srcSquare = formatPiece (m.piece.getD 'P') b.active
            · rw [if_pos hget] at h
              simp at h
              subst h
              exact ⟨(ofName_valid hof).1, (ofName_valid hof).2, hget⟩
            · rw [if_neg hget] at h
              cases h
        · rw [if_neg hval] at h
          rcases hlist : srcStr.toList with - | ⟨c, - | ⟨c2, tl⟩⟩
          · simp only [hlist] at h
            cases h
          · simp only [hlist] at h
            by_cases hrk : isRankChar c = true
            · rw [if_pos hrk] at h
              rcases hri : RANKS.indexOf? c with - | ri
              · simp only [hri] at h
                cases h
              · simp only [hri] at h
                simp only [List.mem_filterMap, List.mem_range] at h
                obtain ⟨fi, hfi, hf⟩ := h
                try dsimp only at hf
                split at hf
                next hcond =>
                  cases hf
                  refine ⟨hfi, ?_, hcond.1⟩
                  unfold List.indexOf? at hri
                  have := (List.findIdx?_eq_some_iff_findIdx_eq.mp hri).1
                  simpa [RANKS] using this
                next => cases hf
            · rw [if_neg hrk] at h
              by_cases hfl : isFileChar c = true
              · rw [if_pos hfl] at h
                rcases hfi : FILES.indexOf? c with - | fi
                · simp only [hfi] at h
                  cases h
                · simp only [hfi] at h
                  simp only [List.mem_filterMap, List.mem_range] at h
                  obtain ⟨ri, hri, hf⟩ := h
                  try dsimp only at hf
                  split at hf
                  next hcond =>
                    cases hf
                    refine ⟨?_, hri, hcond.1⟩
                    unfold List.indexOf? at hfi
                    have := (List.findIdx?_eq_some_iff_findIdx_eq.mp hfi).1
                    simpa [FILES] using this
                  next => cases hf
              · rw [if_neg hfl] at h
                cases h
          · simp only [hlist] at h
            cases h

end Chess

namespace Chess

theorem applyAlgebraicCore_enPassant (b : Board) (m : Move) (s dest : Square) (b1 : Board) :
    (b.applyAlgebraicCore m s dest b1).enPassant =
      (if m.piece = none ∧ ((s.rank : Int) - (dest.rank : Int)).natAbs = 2
       then some ⟨s.file, (s.rank + dest.rank) / 2⟩ else none) := by
  unfold Board.applyAlgebraicCore
  split <;> (repeat' split) <;>
    simp [Board.set, Board.clearCastlingsFor, Board.clearCastlingsMatching] <;>
    (cases b.active <;> rfl)

theorem applyAlgebraic_enPassant {b : Board} {m : Move} {dest : Square} (s : Square)
    (hdd : m.dest.bind Square.ofName = some dest)
    (heps : m.piece = none → b.enPassant = some dest → b.enPassantPawn.isSome = true) :
    ∃ nb, b.applyAlgebraic m [s] = some nb ∧
      nb.enPassant = (if m.piece = none ∧ ((s.rank : Int) - (dest.rank : Int)).natAbs = 2
                      then some ⟨s.file, (s.rank + dest.rank) / 2⟩ else none) := by
  unfold Board.applyAlgebraic
  simp only [hdd, Option.pure_def, Option.bind_eq_bind, List.head?_cons, Option.some_bind]
  by_cases hcond : m.piece = none ∧ b.enPassant = some dest
  · rw [if_pos hcond]
    obtain ⟨eps, hepsq⟩ := Option.isSome_iff_exists.mp (heps hcond.1 hcond.2)
    rw [hepsq]
    exact ⟨_, rfl, applyAlgebraicCore_enPassant b m s dest _⟩
  · rw [if_neg hcond]
    exact ⟨_, rfl, applyAlgebraicCore_enPassant b m s dest _⟩

theorem isPseudoLegal_of_isLegalSq {b : Board} {s d : Square}
    (h : b.isLegalSq s d = true) : b.isPseudoLegal s d = true := by
  unfold Board.isLegalSq at h
  split at h
  · cases h
  · next hns => exact of_not_not hns

theorem threatens_pawn_dir {b : Board} {src dest : Square} {o : Player}
    (hpawn : (b.get src).toUpper = 'P') (howner : getPieceOwner (b.get src) = some o)
    (h : b.threatens src dest = true) :
    (dest.rank : Int) - (src.rank : Int) = pushDirection o ∧ src.dist dest = 1 := by
  unfold Board.threatens at h
  split at h
  · cases h
  · split at h
    · cases h
    · simp only [hpawn] at h
      rw [if_pos trivial, howner] at h
      have h2 : (if src.dist dest = 1 then
          (if (dest.rank : Int) - (src.rank : Int) ≠ pushDirection o then false
           else (((dest.file : Int) - (src.file : Int)).natAbs = 1 : Bool))
          else false) = true := h
      by_cases hd1 : src.dist dest = 1
      · rw [if_pos hd1] at h2
        by_cases hdir : (dest.rank : Int) - (src.rank : Int) ≠ pushDirection o
        · rw [if_pos hdir] at h2
          cases h2
        · exact ⟨of_not_not hdir, hd1⟩
      · rw [if_neg hd1] at h2
        cases h2

theorem pseudo_pawn_dir {b : Board} {src dest : Square} {o : Player}
    (hpawn : (b.get src).toUpper = 'P') (howner : getPieceOwner (b.get src) = some o)
    (hps : b.isPseudoLegal src dest = true) :
    ((dest.rank : Int) - (src.rank : Int) = pushDirection o) ∨
    ((dest.rank : Int) - (src.rank : Int) = 2 * pushDirection o ∧
     (src.rank = backRank o ∨ src.rank = pawnRank o) ∧ dest.file = src.file) := by
  have hne : b.get src ≠ '.' := by
    intro hh
    rw [hh] at hpawn
    cases hpawn
  unfold Board.isPseudoLegal at hps
  rw [if_neg hne] at hps
  split at hps
  · cases hps
  · rw [howner] at hps
    have hps2 : b.pawnPseudoLegal src dest o = true := hps
    unfold Board.pawnPseudoLegal at hps2
    rcases hth : b.threatens src dest with - | -
    · simp only [hth, Bool.false_eq_true, false_and, if_false] at hps2
      by_cases hfile : dest.file ≠ src.file
      · rw [if_pos hfile] at hps2
        cases hps2
      · rw [if_neg hfile] at hps2
        push_neg at hfile
        rcases hadd : src.add (0, pushDirection o) with - | mid
        · simp only [hadd] at hps2
          cases hps2
        · simp only [hadd] at hps2
          unfold Board.pawnPushPseudoLegal at hps2
          by_cases hmid : b.get mid ≠ '.'
          · rw [if_pos hmid] at hps2
            cases hps2
          · rw [if_neg hmid] at hps2
            by_cases hd1 : src.dist dest = 1
            · rw [if_pos hd1] at hps2
              simp only [decide_eq_true_eq] at hps2
              exact Or.inl hps2
            · rw [if_neg hd1] at hps2
              by_cases hd2 : src.dist dest = 2
              · rw [if_pos hd2] at hps2
                by_cases hrank : ¬ (src.rank = backRank o ∨ src.rank = pawnRank o)
                · rw [if_pos hrank] at hps2
                  cases hps2
                · rw [if_neg hrank] at hps2
                  by_cases hde : b.get dest ≠ '.'
                  · rw [if_pos hde] at hps2
                    cases hps2
                  · rw [if_neg hde] at hps2
                    simp only [decide_eq_true_eq] at hps2
                    exact Or.inr ⟨hps2, of_not_not hrank, hfile⟩
              · rw [if_neg hd2] at hps2
                cases hps2
    · exact Or.inl (threatens_pawn_dir hpawn howner hth).1

theorem enPassantPawn_isSome {b : Board} {s dest : Square}
    (hvs : s.rank < 8) (hvd : dest.file < 8 ∧ dest.rank < 8)
    (hpawn : (b.get s).toUpper = 'P') (howner : getPieceOwner (b.get s) = some b.active)
    (hep : b.enPassant = some dest)
    (hps : b.isPseudoLegal s dest = true) :
    b.enPassantPawn.isSome = true := by
  have hdir := pseudo_pawn_dir hpawn howner hps
  unfold Board.enPassantPawn
  rw [hep]
  unfold Square.add
  obtain ⟨hvd1, hvd2⟩ := hvd
  cases hact : b.active with
  | white =>
    rw [hact] at hdir
    simp only [pushDirection, backRank, pawnRank] at hdir
    simp only [getOpponent, pushDirection]
    rw [if_pos (by omega)]
    rfl
  | black =>
    rw [hact] at hdir
    simp only [pushDirection, backRank, pawnRank] at hdir
    simp only [getOpponent, pushDirection]
    rw [if_pos (by omega)]
    rfl

theorem getPieceOwner_formatPiece_P (p : Player) :
    getPieceOwner (formatPiece 'P' p) = some p := by
  cases p <;> decide

theorem guard_not_false_elim {c x : Bool} (h : (if ¬ (c = true) then false else x) = true) :
    x = true := by
  cases c
  · simp at h
  · simpa using h

theorem isLegalSources_spec {b : Board} {m : Move} {destSquare : Square}
    (h : b.isLegalSources m destSquare = true) :
    ∃ s, b.disambiguateSourceSquares m = [s] ∧
      (m.piece = some ((b.get s).toUpper) ∨ (m.piece = none ∧ (b.get s).toUpper = 'P')) ∧
      b.isLegalSq s destSquare = true := by
  unfold Board.isLegalSources at h
  rcases hsq : b.disambiguateSourceSquares m with - | ⟨s, - | ⟨s2, tl2⟩⟩
  · simp only [hsq] at h
    cases h
  · simp only [hsq] at h
    split at h
    · next hp => exact ⟨s, rfl, hp, h⟩
    · next => cases h
  · simp only [hsq] at h
    cases h

theorem isLegalResolved_sources {b : Board} {m : Move} {destSquare : Square}
    (h : b.isLegalResolved m destSquare = true) :
    b.isLegalSources m destSquare = true := by
  unfold Board.isLegalResolved at h
  exact guard_not_false_elim h

theorem c2_en_passant_target_amended (b : Board) (m : Move)
    (hleg : b.isLegalMove m = true) :
    (∀ c, m.castling = some c → (b.makeMove m).enPassant = b.enPassant) ∧
    (m.castling = none →
      ∃ d dest s, m.dest = some d ∧ Square.ofName d = some dest ∧
        b.disambiguateSourceSquares m = [s] ∧
        (m.piece = none → (b.get s).toUpper = 'P') ∧
        (m.piece = none → ((dest.rank : Int) - (s.rank : Int)).natAbs = 2 →
          dest.file = s.file) ∧
        (b.makeMove m).enPassant =
          (if m.piece = none ∧ ((s.rank : Int) - (dest.rank : Int)).natAbs = 2
           then some ⟨s.file, (s.rank + dest.rank) / 2⟩ else none)) := by
  constructor
  · intro c hc
    exact makeMove_castling_enPassant b m c hc
  · intro hcast
    unfold Board.isLegalMove at hleg
    simp only [hcast] at hleg
    rcases hdd : m.dest.bind Square.ofName with - | dest
    · simp only [hdd] at hleg
      cases hleg
    · simp only [hdd] at hleg
      obtain ⟨s, hsq, hpOk, hLS⟩ := isLegalSources_spec (isLegalResolved_sources hleg)
      obtain ⟨hsf, hsr, hgets⟩ :=
        disambiguateSourceSquares_mem (by rw [hsq]; exact List.mem_singleton.mpr rfl)
      rcases hmd : m.dest with - | d
      · rw [hmd] at hdd
        simp at hdd
      · rw [hmd, Option.some_bind] at hdd
        have hvd := ofName_valid hdd
        have hpawnIf : m.piece = none → (b.get s).toUpper = 'P' := by
          intro hn
          rcases hpOk with h | h
          · rw [hn] at h
            cases h
          · exact h.2
        have hOwner : m.piece = none → getPieceOwner (b.get s) = some b.active := by
          intro hn
          rw [hgets, hn]
          exact getPieceOwner_formatPiece_P b.active
        have hfileIf : m.piece = none →
            ((dest.rank : Int) - (s.rank : Int)).natAbs = 2 → dest.file = s.file := by
          intro hn habs
          have hdir := pseudo_pawn_dir (hpawnIf hn) (hOwner hn) (isPseudoLegal_of_isLegalSq hLS)
          rcases hdir with h1 | ⟨-, -, hf⟩
          · rw [h1] at habs
            cases hact : b.active <;> rw [hact] at habs <;> simp [pushDirection] at habs
          · exact hf
        have heps : m.piece = none → b.enPassant = some dest →
            b.enPassantPawn.isSome = true := by
          intro hn hepq
          exact enPassantPawn_isSome hsr ⟨hvd.1, hvd.2⟩ (hpawnIf hn) (hOwner hn) hepq
            (isPseudoLegal_of_isLegalSq hLS)
        have hdd0 : m.dest.bind Square.ofName = some dest := by
          rw [hmd, Option.some_bind]
          exact hdd
        obtain ⟨nb, happ, hnb⟩ := applyAlgebraic_enPassant s hdd0 heps
        refine ⟨d, dest, s, rfl, hdd, hsq, hpawnIf, hfileIf, ?_⟩
        have hmm : (b.makeMove m).enPassant = nb.enPassant := by
          unfold Board.makeMove
          simp only [hcast, hsq, happ]
          exact finishMove_some_enPassant b nb
        rw [hmm, hnb]

theorem c2_en_passant_target_amended_witness :
    ∃ d dest s,
      ({ dest := some "a4" } : Move).dest = some d ∧ Square.ofName d = some dest ∧
      (boardOf "7k/8/8/8/8/8/P7/7K w - - 0 1").disambiguateSourceSquares
        { dest := some "a4" } = [s] ∧
      (({ dest := some "a4" } : Move).piece = none →
        ((boardOf "7k/8/8/8/8/8/P7/7K w - - 0 1").get s).toUpper = 'P') ∧
      (({ dest := some "a4" } : Move).piece = none →
        ((dest.rank : Int) - (s.rank : Int)).natAbs = 2 → dest.file = s.file) ∧
      ((boardOf "7k/8/8/8/8/8/P7/7K w - - 0 1").makeMove { dest := some "a4" }).enPassant =
        (if ({ dest := some "a4" } : Move).piece = none ∧
            ((s.rank : Int) - (dest.rank : Int)).natAbs = 2
         then some ⟨s.file, (s.rank + dest.rank) / 2⟩ else none) :=
  (c2_en_passant_target_amended (boardOf "7k/8/8/8/8/8/P7/7K w - - 0 1")
    { dest := some "a4" } (by decide)).2 rfl



theorem digitChar_isDigit {n : Nat} (h : n < 10) : (Nat.digitChar n).isDigit = true := by
  interval_cases n <;> decide

theorem digitChar_val {n : Nat} (h : n < 10) : (Nat.digitChar n).toNat - '0'.toNat = n := by
  interval_cases n <;> decide

theorem natToDigits_ne_nil (fuel n : Nat) (h : 0 < fuel) : natToDigits fuel n ≠ [] := by
  cases fuel with
  | zero => omega
  | succ f =>
    unfold natToDigits
    split
    · simp
    · simp

theorem parseNatGo_cons (c : Char) (l : List Char) (acc : Nat) :
    parseNatGo (c :: l) acc =
      if c.isDigit then parseNatGo l (acc * 10 + (c.toNat - '0'.toNat)) else none := rfl

theorem parseNatGo_append (xs ys : List Char) (acc : Nat) :
    parseNatGo (xs ++ ys) acc =
      (parseNatGo xs acc).bind (fun a => parseNatGo ys a) := by
  induction xs generalizing acc with
  | nil => rfl
  | cons c xs ih =>
    rw [List.cons_append, parseNatGo_cons, parseNatGo_cons]
    split
    · exact ih _
    · rfl

theorem parseNatGo_natToDigits (fuel : Nat) :
    ∀ n acc, n < 10 ^ fuel →
      parseNatGo (natToDigits fuel n) acc =
        some (acc * 10 ^ (natToDigits fuel n).length + n) := by
  induction fuel with
  | zero =>
    intro n acc h
    have : n = 0 := by simpa using h
    subst this
    simp [natToDigits, parseNatGo]
  | succ f ih =>
    intro n acc h
    unfold natToDigits
    split
    · next h10 =>
      rw [parseNatGo_cons, if_pos (digitChar_isDigit h10), digitChar_val h10]
      show some (acc * 10 + n) = some (acc * 10 ^ 1 + n)
      rw [pow_one]
    · next h10 =>
      push_neg at h10
      have hdiv : n / 10 < 10 ^ f := by
        rw [pow_succ] at h
        omega
      rw [parseNatGo_append, ih (n / 10) acc hdiv, Option.some_bind,
          parseNatGo_cons, if_pos (digitChar_isDigit (Nat.mod_lt n (by norm_num))),
          digitChar_val (Nat.mod_lt n (by norm_num))]
      show some ((acc * 10 ^ (natToDigits f (n / 10)).length + n / 10) * 10 + n % 10) = _
      congr 1
      have hlen : (natToDigits f (n / 10) ++ [Nat.digitChar (n % 10)]).length
          = (natToDigits f (n / 10)).length + 1 := by simp
      rw [hlen, pow_succ]
      have h1 : 10 * (n / 10) + n % 10 = n := Nat.div_add_mod n 10
      calc (acc * 10 ^ (natToDigits f (n / 10)).length + n / 10) * 10 + n % 10
          = acc * (10 ^ (natToDigits f (n / 10)).length * 10)
              + (10 * (n / 10) + n % 10) := by ring
        _ = _ := by rw [h1]

theorem parseNat_natRepr (n : Nat) :
    parseNat (natToDigits (n + 1) n) = some n := by
  have hlt : n < 10 ^ (n + 1) :=
    lt_of_lt_of_le (Nat.lt_pow_self (by norm_num) n)
      (Nat.pow_le_pow_right (by norm_num) (Nat.le_succ n))
  have hne := natToDigits_ne_nil (n + 1) n (by omega)
  unfold parseNat
  split
  · next heq => exact absurd heq hne
  · rw [parseNatGo_natToDigits (n + 1) n 0 hlt]
    simp


theorem natToDigits_isDigit :
    ∀ (fuel n : Nat), ∀ c ∈ natToDigits fuel n, c.isDigit = true := by
  intro fuel
  induction fuel with
  | zero => intro n c hc; simp [natToDigits] at hc
  | succ f ih =>
    intro n c hc
    unfold natToDigits at hc
    split at hc
    · next h10 =>
      simp only [List.mem_singleton] at hc
      subst hc
      exact digitChar_isDigit h10
    · rcases List.mem_append.mp hc with h | h
      · exact ih _ c h
      · simp only [List.mem_singleton] at h
        subst h
        exact digitChar_isDigit (Nat.mod_lt n (by norm_num))

theorem isDigit_ne {c : Char} (h : c.isDigit = true) : c ≠ ' ' ∧ c ≠ '/' := by
  constructor <;> rintro rfl <;> exact absurd h (by decide)

theorem splitOnSpacesGo_nil (acc : List Char) :
    splitOnSpacesGo [] acc = if acc.isEmpty then [] else [acc.reverse] := rfl

theorem splitOnSpacesGo_cons (c : Char) (rest acc : List Char) :
    splitOnSpacesGo (c :: rest) acc =
      if c = ' ' then (if acc.isEmpty then [] else [acc.reverse]) ++ splitOnSpacesGo rest []
      else splitOnSpacesGo rest (c :: acc) := rfl

theorem splitOnSpacesGo_nospace (xs : List Char) (h : ∀ c ∈ xs, c ≠ ' ') :
    ∀ ys acc, splitOnSpacesGo (xs ++ ys) acc = splitOnSpacesGo ys (xs.reverse ++ acc) := by
  induction xs with
  | nil => intro ys acc; rfl
  | cons c xs ih =>
    intro ys acc
    rw [List.cons_append, splitOnSpacesGo_cons, if_neg (h c (by simp)),
        ih (fun x hx => h x (by simp [hx])) ys (c :: acc)]
    congr 1
    simp

theorem splitOnSpaces_field (xs ys : List Char) (hne : xs ≠ [])
    (h : ∀ c ∈ xs, c ≠ ' ') :
    splitOnSpacesGo (xs ++ ' ' :: ys) [] = xs :: splitOnSpacesGo ys [] := by
  rw [splitOnSpacesGo_nospace xs h (' ' :: ys) [], splitOnSpacesGo_cons, if_pos rfl]
  rw [List.append_nil, if_neg (by simpa using hne)]
  simp

theorem splitOnSpaces_last (xs : List Char) (hne : xs ≠ []) (h : ∀ c ∈ xs, c ≠ ' ') :
    splitOnSpacesGo xs [] = [xs] := by
  have h1 := splitOnSpacesGo_nospace xs h [] []
  rw [List.append_nil] at h1
  rw [h1, splitOnSpacesGo_nil, List.append_nil, if_neg (by simpa using hne)]
  simp

theorem splitSlashGo_nil (acc : List Char) : splitSlashGo [] acc = [acc.reverse] := rfl

theorem splitSlashGo_cons (c : Char) (rest acc : List Char) :
    splitSlashGo (c :: rest) acc =
      if c = '/' then acc.reverse :: splitSlashGo rest [] else splitSlashGo rest (c :: acc) := rfl

theorem splitSlashGo_noslash (xs : List Char) (h : ∀ c ∈ xs, c ≠ '/') :
    ∀ ys acc, splitSlashGo (xs ++ ys) acc = splitSlashGo ys (xs.reverse ++ acc) := by
  induction xs with
  | nil => intro ys acc; rfl
  | cons c xs ih =>
    intro ys acc
    rw [List.cons_append, splitSlashGo_cons, if_neg (h c (by simp)),
        ih (fun x hx => h x (by simp [hx])) ys (c :: acc)]
    congr 1
    simp

theorem splitSlash_joinSlash :
    ∀ (parts : List (List Char)), parts ≠ [] →
      (∀ p ∈ parts, ∀ c ∈ p, c ≠ '/') →
      splitSlash (joinSlash parts) = parts := by
  intro parts
  induction parts with
  | nil => intro h; exact absurd rfl h
  | cons p ps ih =>
    intro _ h
    cases ps with
    | nil =>
      show splitSlashGo p [] = [p]
      have h1 := splitSlashGo_noslash p (h p (by simp)) [] []
      rw [List.append_nil] at h1
      rw [h1, splitSlashGo_nil]
      simp
    | cons q rest =>
      show splitSlashGo (p ++ '/' :: joinSlash (q :: rest)) [] = p :: q :: rest
      rw [splitSlashGo_noslash p (h p (by simp)) ('/' :: joinSlash (q :: rest)) [],
          splitSlashGo_cons, if_pos rfl, List.append_nil, List.reverse_reverse]
      have := ih (by simp) (fun x hx => h x (by simp [hx]))
      exact congrArg (p :: ·) this

theorem joinSlash_chars (P : Char → Prop) :
    ∀ (parts : List (List Char)), (∀ p ∈ parts, ∀ c ∈ p, P c) →
      ∀ c ∈ joinSlash parts, P c ∨ c = '/' := by
  intro parts
  induction parts with
  | nil => intro _ c hc; simp [joinSlash] at hc
  | cons p ps ih =>
    intro h c hc
    cases ps with
    | nil => exact Or.inl (h p (by simp) c hc)
    | cons q rest =>
      rw [show joinSlash (p :: q :: rest) = p ++ '/' :: joinSlash (q :: rest) from rfl] at hc
      rcases List.mem_append.mp hc with h1 | h1
      · exact Or.inl (h p (by simp) c h1)
      · rcases List.mem_cons.mp h1 with rfl | h1
        · exact Or.inr rfl
        · exact ih (fun x hx => h x (by simp [hx])) c h1

theorem joinSlash_ne_nil (p : List Char) (ps : List (List Char)) (hp : p ≠ []) :
    joinSlash (p :: ps) ≠ [] := by
  cases ps with
  | nil => exact hp
  | cons q rest => simp [joinSlash]


theorem expandFen_cons (c : Char) (rest : List Char) :
    expandFen (c :: rest) =
      (expandFenChar c).bind (fun e => (expandFen rest).bind (fun r => some (e ++ r))) := rfl

theorem expandFen_append {xs ys xs' ys' : List Char}
    (hx : expandFen xs = some xs') (hy : expandFen ys = some ys') :
    expandFen (xs ++ ys) = some (xs' ++ ys') := by
  induction xs generalizing xs' with
  | nil =>
    injection hx with hx
    subst hx
    simpa using hy
  | cons c rest ih =>
    rw [expandFen_cons] at hx
    obtain ⟨e, he, hx⟩ := Option.bind_eq_some.mp hx
    obtain ⟨r, hr, hx⟩ := Option.bind_eq_some.mp hx
    injection hx with hx
    subst hx
    rw [List.cons_append, expandFen_cons, he, Option.some_bind, ih hr, Option.some_bind]
    simp

theorem expandFenChar_piece {c : Char} (h : c ∈ "RNBQKPrnbqkp".toList) :
    expandFenChar c = some [c] := by
  have h' : c ∈ ['R', 'N', 'B', 'Q', 'K', 'P', 'r', 'n', 'b', 'q', 'k', 'p'] := h
  fin_cases h' <;> decide

theorem expandFen_formatRowGo :
    ∀ (row : List Char) (cnt : Nat),
      (∀ c ∈ row, c ∈ ('.' :: "RNBQKPrnbqkp".toList)) →
      cnt + row.length ≤ 8 →
      expandFen (formatRowGo row cnt) = some (List.replicate cnt '.' ++ row) := by
  intro row
  induction row with
  | nil =>
    intro cnt _ hle
    simp only [List.length_nil, Nat.add_zero] at hle
    interval_cases cnt <;> decide
  | cons c rest ih =>
    intro cnt hcells hle
    simp only [List.length_cons] at hle
    unfold formatRowGo
    by_cases hc : c = '.'
    · rw [if_pos hc]
      rw [ih (cnt + 1) (fun x hx => hcells x (by simp [hx])) (by omega)]
      subst hc
      rw [List.replicate_succ']
      simp
    · rw [if_neg hc]
      have hcell := hcells c (by simp)
      have hpiece : c ∈ "RNBQKPrnbqkp".toList := by
        rcases List.mem_cons.mp hcell with h | h
        · exact absurd h hc
        · exact h
      have h1 : expandFen (if cnt > 0 then (natRepr cnt).toList else []) =
          some (List.replicate cnt '.') := by
        have hcnt : cnt ≤ 8 := by omega
        interval_cases cnt <;> decide
      have h2 : expandFen (c :: formatRowGo rest 0) = some (c :: rest) := by
        rw [expandFen_cons, expandFenChar_piece hpiece, Option.some_bind,
            ih 0 (fun x hx => hcells x (by simp [hx])) (by omega), Option.some_bind]
        simp
      rw [expandFen_append h1 h2]

theorem formatRowGo_chars :
    ∀ (row : List Char) (cnt : Nat),
      ∀ x ∈ formatRowGo row cnt, x.isDigit = true ∨ x ∈ row := by
  intro row
  induction row with
  | nil =>
    intro cnt x hx
    unfold formatRowGo at hx
    split at hx
    · exact Or.inl (natToDigits_isDigit (cnt + 1) cnt x hx)
    · simp at hx
  | cons c rest ih =>
    intro cnt x hx
    unfold formatRowGo at hx
    split at hx
    · rcases ih (cnt + 1) x hx with h | h
      · exact Or.inl h
      · exact Or.inr (by simp [h])
    · rcases List.mem_append.mp hx with h | h
      · split at h
        · exact Or.inl (natToDigits_isDigit (cnt + 1) cnt x h)
        · simp at h
      · rcases List.mem_cons.mp h with rfl | h
        · exact Or.inr (by simp)
        · rcases ih 0 x h with h' | h'
          · exact Or.inl h'
          · exact Or.inr (by simp [h'])

theorem formatRowGo_ne_nil :
    ∀ (row : List Char) (cnt : Nat), 0 < cnt + row.length → formatRowGo row cnt ≠ [] := by
  intro row
  induction row with
  | nil =>
    intro cnt h
    simp only [List.length_nil, Nat.add_zero] at h
    unfold formatRowGo
    rw [if_pos h]
    exact natToDigits_ne_nil (cnt + 1) cnt (by omega)
  | cons c rest ih =>
    intro cnt _
    unfold formatRowGo
    split
    · exact ih (cnt + 1) (by omega)
    · simp

theorem chunksOf8_flatten :
    ∀ (fuel : Nat) (l : List Char), l.length ≤ 8 * fuel → l.length % 8 = 0 →
      (chunksOf8 fuel l).flatten = l := by
  intro fuel
  induction fuel with
  | zero =>
    intro l h _
    have : l = [] := List.eq_nil_of_length_eq_zero (by omega)
    subst this
    rfl
  | succ f ih =>
    intro l h hmod
    unfold chunksOf8
    split
    · next hlt =>
      have : l = [] := List.eq_nil_of_length_eq_zero (by omega)
      subst this
      rfl
    · next hlt =>
      push_neg at hlt
      rw [List.flatten_cons,
          ih (l.drop 8) (by simp; omega) (by simp; omega)]
      exact List.take_append_drop 8 l

theorem chunksOf8_mem :
    ∀ (fuel : Nat) (l : List Char), ∀ r ∈ chunksOf8 fuel l,
      r.length = 8 ∧ ∀ c ∈ r, c ∈ l := by
  intro fuel
  induction fuel with
  | zero => intro l r hr; simp [chunksOf8] at hr
  | succ f ih =>
    intro l r hr
    unfold chunksOf8 at hr
    split at hr
    · simp at hr
    · next hlt =>
      push_neg at hlt
      rcases List.mem_cons.mp hr with rfl | hr
      · refine ⟨by simp; omega, fun c hc => ?_⟩
        exact List.mem_of_mem_take hc
      · obtain ⟨h1, h2⟩ := ih (l.drop 8) r hr
        exact ⟨h1, fun c hc => List.mem_of_mem_drop (h2 c hc)⟩

theorem chunksOf8_ne_nil (fuel : Nat) (l : List Char) (hf : 0 < fuel)
    (hl : 8 ≤ l.length) : chunksOf8 fuel l ≠ [] := by
  cases fuel with
  | zero => omega
  | succ f =>
    unfold chunksOf8
    rw [if_neg (by omega)]
    simp

theorem castlingCharsOf_ne_nil (k q bk bq : Option Char) :
    castlingCharsOf k q bk bq ≠ [] := by
  cases k <;> cases q <;> cases bk <;> cases bq <;> simp [castlingCharsOf]

theorem castlingCharsOf_no_space (k q bk bq : Option Char) :
    ∀ c ∈ castlingCharsOf k q bk bq, c ≠ ' ' := by
  intro c hc heq
  subst heq
  cases k <;> cases q <;> cases bk <;> cases bq <;> simp [castlingCharsOf] at hc

theorem parseCastling_castlingCharsOf {k q bk bq : Option Char}
    (hk : k = none ∨ k = some 'H') (hq : q = none ∨ q = some 'A')
    (hbk : bk = none ∨ bk = some 'h') (hbq : bq = none ∨ bq = some 'a') :
    (if castlingCharsOf k q bk bq = ['-'] then some (none, none, none, none)
     else parseCastlingGo (castlingCharsOf k q bk bq) (none, none, none, none))
      = some (k, q, bk, bq) := by
  rcases hk with rfl | rfl <;> rcases hq with rfl | rfl <;>
    rcases hbk with rfl | rfl <;> rcases hbq with rfl | rfl <;> decide

theorem ofName_name {sq : Square} (hf : sq.file < 8) (hr : sq.rank < 8) :
    Square.ofName sq.name = some sq := by
  obtain ⟨f, r⟩ := sq
  have h : ∀ f' < 8, ∀ r' < 8,
      Square.ofName (Square.name ⟨f', r'⟩) = some ⟨f', r'⟩ := by decide
  exact h f hf r hr

theorem expandFen_rows :
    ∀ rows : List (List Char),
      (∀ r ∈ rows, r.length = 8 ∧ ∀ c ∈ r, c ∈ ('.' :: "RNBQKPrnbqkp".toList)) →
      expandFen (rows.map formatRow).flatten = some rows.flatten := by
  intro rows
  induction rows with
  | nil => intro _; rfl
  | cons r rs ih =>
    intro h
    rw [List.map_cons, List.flatten_cons, List.flatten_cons]
    obtain ⟨hlen, hcells⟩ := h r (by simp)
    have h1 : expandFen (formatRow r) = some r := by
      have h2 := expandFen_formatRowGo r 0 hcells (by omega)
      simpa [formatRow] using h2
    exact expandFen_append h1 (ih (fun x hx => h x (by simp [hx])))

theorem parseFen_fen (b : Board) (hb : b.wellFormed) : parseFen b.fen = some b := by
  obtain ⟨brd, act, ep, cK, cQ, ck, cq, fc, mn⟩ := b
  obtain ⟨hlen, hcells, hep, hK, hQ, hk, hq⟩ := hb
  have hlen : brd.length = 64 := hlen
  have hcells : ∀ c ∈ brd, c ∈ ('.' :: "RNBQKPrnbqkp".toList) := hcells
  have hep : ep.all (fun sq => decide (sq.file < 8) && decide (sq.rank < 8)) = true := hep
  have hK : cK = none ∨ cK = some 'H' := hK
  have hQ : cQ = none ∨ cQ = some 'A' := hQ
  have hk : ck = none ∨ ck = some 'h' := hk
  have hq : cq = none ∨ cq = some 'a' := hq
  have hvc : ∀ c ∈ ('.' :: "RNBQKPrnbqkp".toList), c ≠ ' ' ∧ c ≠ '/' := by decide
  have hname : ∀ f' < 8, ∀ r' < 8,
      (∀ c ∈ (Square.name ⟨f', r'⟩).toList, c ≠ ' ') ∧
      (Square.name ⟨f', r'⟩).toList ≠ ['-'] := by decide
  have hepb : ∀ sq, ep = some sq → sq.file < 8 ∧ sq.rank < 8 := by
    intro sq hsq
    rw [hsq] at hep
    have h' : (decide (sq.file < 8) && decide (sq.rank < 8)) = true := hep
    simp only [Bool.and_eq_true, decide_eq_true_eq] at h'
    exact h'
  have hrowsmem := chunksOf8_mem brd.length brd
  have hparts : ∀ p ∈ ((chunksOf8 brd.length brd).reverse.map formatRow),
      p ≠ [] ∧ ∀ c ∈ p, c ≠ ' ' ∧ c ≠ '/' := by
    intro p hp
    obtain ⟨r, hr, rfl⟩ := List.mem_map.mp hp
    have hr' : r ∈ chunksOf8 brd.length brd := List.mem_reverse.mp hr
    obtain ⟨hrlen, hrcells⟩ := hrowsmem r hr'
    refine ⟨formatRowGo_ne_nil r 0 (by omega), ?_⟩
    intro c hc
    rcases formatRowGo_chars r 0 c hc with h | h
    · exact isDigit_ne h
    · exact hvc c (hcells c (hrcells c h))
  have hpartsne : ((chunksOf8 brd.length brd).reverse.map formatRow) ≠ [] := by
    simp only [ne_eq, List.map_eq_nil_iff, List.reverse_eq_nil_iff]
    exact chunksOf8_ne_nil _ _ (by omega) (by omega)
  have hplne : joinSlash ((chunksOf8 brd.length brd).reverse.map formatRow) ≠ [] := by
    obtain ⟨p, ps, hpps⟩ := List.exists_cons_of_ne_nil hpartsne
    rw [hpps]
    exact joinSlash_ne_nil p ps ((hparts p (by rw [hpps]; simp)).1)
  have hplsp : ∀ c ∈ joinSlash ((chunksOf8 brd.length brd).reverse.map formatRow),
      c ≠ ' ' := by
    intro c hc
    rcases joinSlash_chars (fun c => c ≠ ' ' ∧ c ≠ '/') _
        (fun p hp => (hparts p hp).2) c hc with h | rfl
    · exact h.1
    · decide
  have hafne : (if act = Player.white then ['w'] else ['b']) ≠ [] := by
    cases act <;> simp
  have hafsp : ∀ c ∈ (if act = Player.white then ['w'] else ['b']), c ≠ ' ' := by
    cases act <;> decide
  have hefne : (match ep with | none => ['-'] | some sq => (sq.name).toList) ≠ [] := by
    cases ep with
    | none => decide
    | some sq => simp [Square.name]
  have hefsp : ∀ c ∈ (match ep with | none => ['-'] | some sq => (sq.name).toList),
      c ≠ ' ' := by
    cases ep with
    | none => decide
    | some sq =>
      obtain ⟨hf, hr⟩ := hepb sq rfl
      exact (hname sq.file hf sq.rank hr).1
  have hn1sp : ∀ c ∈ natToDigits (fc + 1) fc, c ≠ ' ' :=
    fun c hc => (isDigit_ne (natToDigits_isDigit _ _ c hc)).1
  have hn2sp : ∀ c ∈ natToDigits (mn + 1) mn, c ≠ ' ' :=
    fun c hc => (isDigit_ne (natToDigits_isDigit _ _ c hc)).1
  have hsplit : splitOnSpaces
      (Board.fenChars ⟨brd, act, ep, cK, cQ, ck, cq, fc, mn⟩) =
      [joinSlash ((chunksOf8 brd.length brd).reverse.map formatRow),
       (if act = Player.white then ['w'] else ['b']),
       castlingCharsOf cK cQ ck cq,
       (match ep with | none => ['-'] | some sq => (sq.name).toList),
       natToDigits (fc + 1) fc,
       natToDigits (mn + 1) mn] := by
    have hstep : Board.fenChars ⟨brd, act, ep, cK, cQ, ck, cq, fc, mn⟩ =
        joinSlash ((chunksOf8 brd.length brd).reverse.map formatRow) ++ ' ' ::
        ((if act = Player.white then ['w'] else ['b']) ++ ' ' ::
         (castlingCharsOf cK cQ ck cq ++ ' ' ::
          ((match ep with | none => ['-'] | some sq => (sq.name).toList) ++ ' ' ::
           (natToDigits (fc + 1) fc ++ ' ' :: natToDigits (mn + 1) mn)))) := rfl
    rw [hstep]
    unfold splitOnSpaces
    rw [splitOnSpaces_field _ _ hplne hplsp,
        splitOnSpaces_field _ _ hafne hafsp,
        splitOnSpaces_field _ _ (castlingCharsOf_ne_nil cK cQ ck cq)
          (castlingCharsOf_no_space cK cQ ck cq),
        splitOnSpaces_field _ _ hefne hefsp,
        splitOnSpaces_field _ _ (natToDigits_ne_nil _ _ (by omega)) hn1sp,
        splitOnSpaces_last _ (natToDigits_ne_nil _ _ (by omega)) hn2sp]
  have hexp : expandFen
      ((splitSlash (joinSlash ((chunksOf8 brd.length brd).reverse.map formatRow))).reverse).flatten
      = some brd := by
    rw [splitSlash_joinSlash _ hpartsne (fun p hp c hc => ((hparts p hp).2 c hc).2)]
    rw [show ((chunksOf8 brd.length brd).reverse.map formatRow).reverse
        = (chunksOf8 brd.length brd).map formatRow from by
      rw [← List.map_reverse, List.reverse_reverse]]
    rw [expandFen_rows _ (fun r hr =>
      ⟨(hrowsmem r hr).1, fun c hc => hcells c ((hrowsmem r hr).2 c hc)⟩)]
    rw [chunksOf8_flatten brd.length brd (by omega) (by omega)]
  have hsplit' : splitOnSpaces
      (String.toList (Board.fen ⟨brd, act, ep, cK, cQ, ck, cq, fc, mn⟩)) =
      [joinSlash ((chunksOf8 brd.length brd).reverse.map formatRow),
       (if act = Player.white then ['w'] else ['b']),
       castlingCharsOf cK cQ ck cq,
       (match ep with | none => ['-'] | some sq => (sq.name).toList),
       natToDigits (fc + 1) fc,
       natToDigits (mn + 1) mn] := hsplit
  have hflags := parseCastling_castlingCharsOf hK hQ hk hq
  unfold parseFen
  rw [hsplit']
  dsimp only
  simp only [Option.bind_eq_bind, Option.pure_def]
  rw [hexp, Option.some_bind]
  rw [hlen, if_neg (show ¬(64 ≠ 64) by omega)]
  cases act with
  | white =>
    rw [if_pos (show Player.white = Player.white from rfl)]
    rw [if_pos (show (['w'] : List Char) = ['w'] from rfl), Option.some_bind]
    cases ep with
    | none =>
      dsimp only
      rw [if_pos (show (['-'] : List Char) = ['-'] from rfl), Option.some_bind]
      by_cases hc : castlingCharsOf cK cQ ck cq = ['-']
      · rw [if_pos hc]
        rw [if_pos hc] at hflags
        injection hflags with hflags
        rw [hflags, Option.some_bind]
        rw [parseNat_natRepr fc, Option.some_bind]
        rw [parseNat_natRepr mn, Option.some_bind]
      · rw [if_neg hc]
        rw [if_neg hc] at hflags
        rw [hflags, Option.some_bind]
        rw [parseNat_natRepr fc, Option.some_bind]
        rw [parseNat_natRepr mn, Option.some_bind]
    | some sq =>
      obtain ⟨hf, hr⟩ := hepb sq rfl
      dsimp only
      rw [if_neg ((hname sq.file hf sq.rank hr).2)]
      rw [show Square.ofName ⟨(Square.name sq).toList⟩ = some sq from ofName_name hf hr]
      rw [show Option.map (some : Square → Option Square) (some sq)
          = some (some sq) from rfl]
      rw [Option.some_bind]
      by_cases hc : castlingCharsOf cK cQ ck cq = ['-']
      · rw [if_pos hc]
        rw [if_pos hc] at hflags
        injection hflags with hflags
        rw [hflags, Option.some_bind]
        rw [parseNat_natRepr fc, Option.some_bind]
        rw [parseNat_natRepr mn, Option.some_bind]
      · rw [if_neg hc]
        rw [if_neg hc] at hflags
        rw [hflags, Option.some_bind]
        rw [parseNat_natRepr fc, Option.some_bind]
        rw [parseNat_natRepr mn, Option.some_bind]
  | black =>
    rw [if_neg (show ¬(Player.black = Player.white) from by decide)]
    rw [if_neg (show ¬((['b'] : List Char) = ['w']) from by decide)]
    rw [if_pos (show (['b'] : List Char) = ['b'] from rfl), Option.some_bind]
    cases ep with
    | none =>
      dsimp only
      rw [if_pos (show (['-'] : List Char) = ['-'] from rfl), Option.some_bind]
      by_cases hc : castlingCharsOf cK cQ ck cq = ['-']
      · rw [if_pos hc]
        rw [if_pos hc] at hflags
        injection hflags with hflags
        rw [hflags, Option.some_bind]
        rw [parseNat_natRepr fc, Option.some_bind]
        rw [parseNat_natRepr mn, Option.some_bind]
      · rw [if_neg hc]
        rw [if_neg hc] at hflags
        rw [hflags, Option.some_bind]
        rw [parseNat_natRepr fc, Option.some_bind]
        rw [parseNat_natRepr mn, Option.some_bind]
    | some sq =>
      obtain ⟨hf, hr⟩ := hepb sq rfl
      dsimp only
      rw [if_neg ((hname sq.file hf sq.rank hr).2)]
      rw [show Square.ofName ⟨(Square.name sq).toList⟩ = some sq from ofName_name hf hr]
      rw [show Option.map (some : Square → Option Square) (some sq)
          = some (some sq) from rfl]
      rw [Option.some_bind]
      by_cases hc : castlingCharsOf cK cQ ck cq = ['-']
      · rw [if_pos hc]
        rw [if_pos hc] at hflags
        injection hflags with hflags
        rw [hflags, Option.some_bind]
        rw [parseNat_natRepr fc, Option.some_bind]
        rw [parseNat_natRepr mn, Option.some_bind]
      · rw [if_neg hc]
        rw [if_neg hc] at hflags
        rw [hflags, Option.some_bind]
        rw [parseNat_natRepr fc, Option.some_bind]
        rw [parseNat_natRepr mn, Option.some_bind]


/-- C3 (amended): parsing a valid position string and re-exporting need not
reproduce it verbatim (digit runs may be non-maximal), but every exported
string is canonical: for a well-formed board the export parses back to
exactly that board, so any string in the image of fen round-trips exactly. -/
theorem c3_round_trip_amended (s : String) (b : Board)
    (hb : b.wellFormed) (hs : b.fen = s) :
    ∃ b' : Board, parseFen s = some b' ∧ b'.fen = s := by
  subst hs
  exact ⟨b, parseFen_fen b hb, rfl⟩

theorem c3_round_trip_amended_witness :
    (boardOf "rnbqkbnr/pppppppp/8/8/8/8/PPPPPPPP/RNBQKBNR w KQkq - 0 1").wellFormed ∧
    ∃ b' : Board,
      parseFen (boardOf "rnbqkbnr/pppppppp/8/8/8/8/PPPPPPPP/RNBQKBNR w KQkq - 0 1").fen
        = some b' ∧
      b'.fen = (boardOf "rnbqkbnr/pppppppp/8/8/8/8/PPPPPPPP/RNBQKBNR w KQkq - 0 1").fen :=
  ⟨by decide,
   c3_round_trip_amended _
     (boardOf "rnbqkbnr/pppppppp/8/8/8/8/PPPPPPPP/RNBQKBNR w KQkq - 0 1")
     (by decide) rfl⟩


theorem mem_ite_nil {α : Type} {c : Prop} [Decidable c] {l : List α} {x : α}
    (h : x ∈ if c then l else []) : c ∧ x ∈ l := by
  split at h
  · next hc => exact ⟨hc, h⟩
  · cases h

theorem add_valid {s t : Square} {dv : Int × Int} (h : s.add dv = some t) :
    t.file < 8 ∧ t.rank < 8 := by
  unfold Square.add at h
  dsimp only at h
  split at h
  · next hb =>
    injection h with h
    subst h
    dsimp only
    omega
  · cases h

theorem slideDests_valid {b : Board} {src : Square} {dv : Int × Int} :
    ∀ (fuel : Nat) (start : Option Square) {d : Square},
      (∀ t, start = some t → t.file < 8 ∧ t.rank < 8) →
      d ∈ b.slideDests src dv fuel start → d.file < 8 ∧ d.rank < 8 := by
  intro fuel
  induction fuel with
  | zero =>
    intro start d _ hd
    cases start <;> simp [Board.slideDests] at hd
  | succ f ih =>
    intro start d hstart hd
    cases start with
    | none => simp [Board.slideDests] at hd
    | some cur =>
      unfold Board.slideDests at hd
      rcases List.mem_append.mp hd with h | h
      · split at h
        · simp only [List.mem_singleton] at h
          subst h
          exact hstart d rfl
        · cases h
      · exact ih _ (fun t ht => add_valid ht) h

theorem legalMoves_valid {b : Board} {src d : Square}
    (h : d ∈ b.legalMoves src) : d.file < 8 ∧ d.rank < 8 := by
  unfold Board.legalMoves at h
  split at h
  · cases h
  · dsimp only at h
    simp only [List.mem_append] at h
    rcases h with (((h | h) | h) | h) | h
    · obtain ⟨-, h⟩ := mem_ite_nil h
      obtain ⟨dv, -, hf⟩ := List.mem_filterMap.mp h
      split at hf
      · next hadd =>
        split at hf
        · injection hf with hf
          subst hf
          exact add_valid hadd
        · cases hf
      · cases hf
    · obtain ⟨-, h⟩ := mem_ite_nil h
      obtain ⟨dv, -, hf⟩ := List.mem_filterMap.mp h
      split at hf
      · next hadd =>
        split at hf
        · injection hf with hf
          subst hf
          exact add_valid hadd
        · cases hf
      · cases hf
    · obtain ⟨-, h⟩ := mem_ite_nil h
      split at h
      · rcases List.mem_append.mp h with h | h
        · split at h
          · next hadd =>
            rcases List.mem_append.mp h with h | h
            · split at h
              · simp only [List.mem_singleton] at h
                subst h
                exact add_valid hadd
              · cases h
            · split at h
              · split at h
                · next hadd2 =>
                  split at h
                  · simp only [List.mem_singleton] at h
                    subst h
                    exact add_valid hadd2
                  · cases h
                · cases h
              · cases h
          · cases h
        · obtain ⟨df, -, hf⟩ := List.mem_filterMap.mp h
          split at hf
          · next hadd =>
            split at hf
            · injection hf with hf
              subst hf
              exact add_valid hadd
            · cases hf
          · cases hf
      · cases h
    · obtain ⟨-, h⟩ := mem_ite_nil h
      obtain ⟨dv, -, hdv⟩ := List.mem_flatMap.mp h
      exact slideDests_valid 8 _ (fun t ht => add_valid ht) hdv
    · obtain ⟨-, h⟩ := mem_ite_nil h
      obtain ⟨dv, -, hdv⟩ := List.mem_flatMap.mp h
      exact slideDests_valid 8 _ (fun t ht => add_valid ht) hdv

theorem name_inj {s t : Square} (hs : s.file < 8 ∧ s.rank < 8)
    (ht : t.file < 8 ∧ t.rank < 8) (h : s.name = t.name) : s = t := by
  have h1 := ofName_name hs.1 hs.2
  have h2 := ofName_name ht.1 ht.2
  rw [h] at h1
  rw [h1] at h2
  injection h2

theorem squareOfIndex_valid {i : Nat} (hi : i < 64) :
    (squareOfIndex i).file < 8 ∧ (squareOfIndex i).rank < 8 := by
  unfold squareOfIndex
  dsimp only
  omega

theorem squareOfIndex_inj {i j : Nat}
    (h : squareOfIndex i = squareOfIndex j) : i = j := by
  unfold squareOfIndex at h
  injection h with h1 h2
  omega

theorem get_squareOfIndex (b : Board) (i : Nat) :
    b.get (squareOfIndex i) = b.board.getD i '.' := by
  unfold Board.get squareOfIndex Square.index
  dsimp only
  congr 1
  omega

theorem formatPiece_toUpper_cell :
    ∀ c ∈ "RNBQKPrnbqkp".toList, ∀ (p : Player),
      getPieceOwner c = some p → formatPiece c.toUpper p = c := by
  intro c hc p
  have hc' : c ∈ ['R', 'N', 'B', 'Q', 'K', 'P', 'r', 'n', 'b', 'q', 'k', 'p'] := hc
  fin_cases hc' <;> cases p <;> decide

theorem owner_ne_dot {c : Char} {p : Player} (h : getPieceOwner c = some p) :
    c ≠ '.' := by
  rintro rfl
  simp [getPieceOwner] at h


theorem validSquareName_name : ∀ f < 8, ∀ r < 8,
    validSquareName (Square.name ⟨f, r⟩) = true := by decide

theorem fileChar_facts : ∀ f < 8,
    isRankChar (FILES.getD f '?') = false ∧ isFileChar (FILES.getD f '?') = true ∧
    FILES.indexOf? (FILES.getD f '?') = some f := by decide

theorem rankChar_facts : ∀ r < 8,
    isRankChar (RANKS.getD r '?') = true ∧
    RANKS.indexOf? (RANKS.getD r '?') = some r := by decide

theorem dss_fullname {b : Board} {m : Move} {sq d : Square}
    (hsrc : m.src = some sq.name) (hdest : m.dest = some d.name)
    (hsq : sq.file < 8 ∧ sq.rank < 8) (hd : d.file < 8 ∧ d.rank < 8)
    (hcont : b.board.contains (formatPiece (m.piece.getD 'P') b.active) = true)
    (hget : b.get sq = formatPiece (m.piece.getD 'P') b.active) :
    b.disambiguateSourceSquares m = [sq] := by
  unfold Board.disambiguateSourceSquares
  rw [hdest,
      show (some (Square.name d)).bind Square.ofName = some d from ofName_name hd.1 hd.2]
  dsimp only
  rw [if_neg (not_not_intro hcont), hsrc]
  dsimp only
  rw [if_pos ?hval]
  case hval =>
    obtain ⟨f, r⟩ := sq
    exact validSquareName_name f hsq.1 r hsq.2
  rw [ofName_name hsq.1 hsq.2]
  dsimp only
  rw [if_pos hget]

theorem dss_none_mem {b : Board} {m : Move} {sq d : Square}
    (hsrc : m.src = none) (hdest : m.dest = some d.name)
    (hsq : sq.file < 8 ∧ sq.rank < 8) (hd : d.file < 8 ∧ d.rank < 8)
    (hcont : b.board.contains (formatPiece (m.piece.getD 'P') b.active) = true)
    (hget : b.get sq = formatPiece (m.piece.getD 'P') b.active)
    (hlm : d ∈ b.legalMoves sq) :
    sq ∈ b.disambiguateSourceSquares m := by
  unfold Board.disambiguateSourceSquares
  rw [hdest,
      show (some (Square.name d)).bind Square.ofName = some d from ofName_name hd.1 hd.2]
  dsimp only
  rw [if_neg (not_not_intro hcont), hsrc]
  dsimp only
  rw [List.mem_filterMap]
  refine ⟨sq.index, ?_, ?_⟩
  · rw [List.mem_range]
    unfold Square.index
    omega
  · have hsqi : squareOfIndex sq.index = sq := by
      obtain ⟨f, r⟩ := sq
      unfold squareOfIndex Square.index
      dsimp only at hsq ⊢
      have h1 : (r * 8 + f) % 8 = f := by omega
      have h2 : (r * 8 + f) / 8 = r := by omega
      rw [h1, h2]
    rw [hsqi]
    rw [if_pos ⟨show b.board.getD sq.index '.' = _ from hget,
        show (b.legalMoves sq).contains d = true from List.elem_eq_true_of_mem hlm⟩]

theorem dss_filechar_mem {b : Board} {m : Move} {sq d : Square}
    (hsrc : m.src = some ⟨[FILES.getD sq.file '?']⟩) (hdest : m.dest = some d.name)
    (hsq : sq.file < 8 ∧ sq.rank < 8) (hd : d.file < 8 ∧ d.rank < 8)
    (hcont : b.board.contains (formatPiece (m.piece.getD 'P') b.active) = true)
    (hget : b.get sq = formatPiece (m.piece.getD 'P') b.active)
    (hlm : d ∈ b.legalMoves sq) :
    sq ∈ b.disambiguateSourceSquares m := by
  unfold Board.disambiguateSourceSquares
  rw [hdest,
      show (some (Square.name d)).bind Square.ofName = some d from ofName_name hd.1 hd.2]
  dsimp only
  rw [if_neg (not_not_intro hcont), hsrc]
  dsimp only
  rw [if_neg (show ¬ (validSquareName ⟨[FILES.getD sq.file '?']⟩ = true) from by
    unfold validSquareName
    simp)]
  dsimp only [String.toList]
  rw [(fileChar_facts sq.file hsq.1).1, if_neg (show ¬ ((false : Bool) = true) from by decide),
      (fileChar_facts sq.file hsq.1).2.1, if_pos rfl,
      (fileChar_facts sq.file hsq.1).2.2]
  rw [List.mem_filterMap]
  refine ⟨sq.rank, by rw [List.mem_range]; exact hsq.2, ?_⟩
  rw [if_pos ⟨show b.get ⟨sq.file, sq.rank⟩ = _ from hget,
      show (b.legalMoves ⟨sq.file, sq.rank⟩).contains d = true from
        List.elem_eq_true_of_mem hlm⟩]

theorem dss_rankchar_mem {b : Board} {m : Move} {sq d : Square}
    (hsrc : m.src = some ⟨[RANKS.getD sq.rank '?']⟩) (hdest : m.dest = some d.name)
    (hsq : sq.file < 8 ∧ sq.rank < 8) (hd : d.file < 8 ∧ d.rank < 8)
    (hcont : b.board.contains (formatPiece (m.piece.getD 'P') b.active) = true)
    (hget : b.get sq = formatPiece (m.piece.getD 'P') b.active)
    (hlm : d ∈ b.legalMoves sq) :
    sq ∈ b.disambiguateSourceSquares m := by
  unfold Board.disambiguateSourceSquares
  rw [hdest,
      show (some (Square.name d)).bind Square.ofName = some d from ofName_name hd.1 hd.2]
  dsimp only
  rw [if_neg (not_not_intro hcont), hsrc]
  dsimp only
  rw [if_neg (show ¬ (validSquareName ⟨[RANKS.getD sq.rank '?']⟩ = true) from by
    unfold validSquareName
    simp)]
  dsimp only [String.toList]
  rw [(rankChar_facts sq.rank hsq.2).1, if_pos rfl,
      (rankChar_facts sq.rank hsq.2).2]
  rw [List.mem_filterMap]
  refine ⟨sq.file, by rw [List.mem_range]; exact hsq.1, ?_⟩
  rw [if_pos ⟨show b.get ⟨sq.file, sq.rank⟩ = _ from hget,
      show (b.legalMoves ⟨sq.file, sq.rank⟩).contains d = true from
        List.elem_eq_true_of_mem hlm⟩]


theorem isLegalMove_dss_singleton {b : Board} {v : Move} {d : Square}
    (hc : v.castling = none) (hdest : v.dest = some d.name)
    (hd : d.file < 8 ∧ d.rank < 8)
    (h : b.isLegalMove v = true) :
    ∃ s0, b.disambiguateSourceSquares v = [s0] ∧
      (v.piece = some ((b.get s0).toUpper) ∨ (v.piece = none ∧ (b.get s0).toUpper = 'P')) ∧
      b.isLegalSq s0 d = true := by
  unfold Board.isLegalMove at h
  rw [hc] at h
  rw [hdest] at h
  rw [show (some (Square.name d)).bind Square.ofName = some d from ofName_name hd.1 hd.2] at h
  exact isLegalSources_spec (isLegalResolved_sources h)

theorem dss_eq_of_core {b : Board} {m1 m2 : Move} (hp : m1.piece = m2.piece)
    (hs : m1.src = m2.src) (hd : m1.dest = m2.dest) :
    b.disambiguateSourceSquares m1 = b.disambiguateSourceSquares m2 := by
  unfold Board.disambiguateSourceSquares
  rw [hp, hs, hd]

theorem minimizeSrc_nil {b : Board} {base : Move} (last : Option String) :
    b.minimizeSrc base [] last = last := rfl

theorem minimizeSrc_cons {b : Board} {base : Move} (cand : Option String)
    (rest : List (Option String)) (last : Option String) :
    b.minimizeSrc base (cand :: rest) last =
      if base.piece = none ∧ base.capture ≠ none ∧ cand = none then
        b.minimizeSrc base rest last
      else if b.isLegalMove { base with src := cand } then cand
      else b.minimizeSrc base rest cand := rfl

theorem minimizeSrc_quad {b : Board} {base : Move} (s2 s3 s4 la : String) :
    b.minimizeSrc base [none, some s2, some s3, some s4] (some la) =
      if ¬ (base.piece = none ∧ base.capture ≠ none) ∧
          b.isLegalMove { base with src := none } = true then none
      else if b.isLegalMove { base with src := some s2 } = true then some s2
      else if b.isLegalMove { base with src := some s3 } = true then some s3
      else some s4 := by
  by_cases hskip : base.piece = none ∧ base.capture ≠ none <;>
    by_cases h1 : b.isLegalMove { base with src := (none : Option String) } = true <;>
    by_cases h2 : b.isLegalMove { base with src := some s2 } = true <;>
    by_cases h3 : b.isLegalMove { base with src := some s3 } = true <;>
    by_cases h4 : b.isLegalMove { base with src := some s4 } = true <;>
    simp [minimizeSrc_cons, minimizeSrc_nil, hskip, h1, h2, h3, h4]

theorem canonical_compute {b : Board} {m mf : Move} {sq d : Square}
    (hcast : m.castling = none)
    (hdest : m.dest = some d.name)
    (hd : d.file < 8 ∧ d.rank < 8)
    (hdss : b.disambiguateSourceSquares m = [sq])
    (hmf : mf = { m with
      src := some sq.name,
      capture := (if b.get d ≠ '.' then some 'x'
                  else if m.piece = none ∧ b.enPassant = some d then some 'x'
                  else m.capture) }) :
    b.disambiguateMove m = some mf ∧
    b.getMoveCanonicalForm m = some { mf with
      src := b.minimizeSrc mf
        [none, some ⟨[FILES.getD sq.file '?']⟩, some ⟨[RANKS.getD sq.rank '?']⟩,
         some sq.name]
        (some sq.name) } := by
  have hdis : b.disambiguateMove m = some mf := by
    unfold Board.disambiguateMove
    rw [hcast]
    dsimp only
    rw [hdss, show ([sq].head? : Option Square) = some sq from rfl, hdest,
        show (some (Square.name d)).bind Square.ofName = some d from ofName_name hd.1 hd.2]
    simp only [Option.bind_eq_bind, Option.some_bind, Option.pure_def]
    rw [hmf, hcast, hdest]
    by_cases hocc : b.get d ≠ '.'
    · rw [if_pos hocc]
      try rw [if_pos hocc]
    · rw [if_neg hocc]
      try rw [if_neg hocc]
      by_cases hep : m.piece = none ∧ b.enPassant = some d
      · rw [if_pos hep]
        try rw [if_pos hep]
      · rw [if_neg hep]
        try rw [if_neg hep]
  refine ⟨hdis, ?_⟩
  have hmfc : mf.castling = none := by rw [hmf]; exact hcast
  have hmfs : mf.src = some sq.name := by rw [hmf]
  unfold Board.getMoveCanonicalForm
  rw [hdis]
  simp only [Option.bind_eq_bind, Option.some_bind, Option.pure_def]
  rw [hmfc]
  dsimp only
  rw [hmfs]
  dsimp only
  rw [show (Square.name sq).toList = [FILES.getD sq.file '?', RANKS.getD sq.rank '?'] from rfl]


theorem canonical_member {b : Board} {sq d : Square} {m : Move} {pc : Char}
    (hpc : b.get sq = pc)
    (hpcb : pc ∈ b.board)
    (hsqv : sq.file < 8 ∧ sq.rank < 8)
    (hpcmem : pc ∈ "RNBQKPrnbqkp".toList)
    (howner : getPieceOwner pc = some b.active)
    (hd : d ∈ b.legalMoves sq)
    (hm : m = { piece := if pc.toUpper = 'P' then none else some pc.toUpper,
                src := some sq.name, dest := some d.name, promotion := m.promotion }) :
    ∃ c, b.getMoveCanonicalForm m = some c ∧
      b.getMoveCanonicalForm c = some c ∧
      c.castling = none ∧ c.piece = m.piece ∧ c.dest = m.dest ∧
      c.promotion = m.promotion ∧
      b.disambiguateSourceSquares c = [sq] := by
  have hscast : m.castling = none := by rw [hm]
  have hsrc : m.src = some sq.name := by rw [hm]
  have hdest : m.dest = some d.name := by rw [hm]
  have hdv : d.file < 8 ∧ d.rank < 8 := legalMoves_valid hd
  have hfp : formatPiece pc.toUpper b.active = pc :=
    formatPiece_toUpper_cell pc hpcmem b.active howner
  have hpg : m.piece.getD 'P' = pc.toUpper := by
    rw [hm]
    dsimp only
    by_cases hpu : pc.toUpper = 'P'
    · rw [if_pos hpu]
      exact hpu.symm
    · rw [if_neg hpu]
      rfl
  have hpieceeq : formatPiece (m.piece.getD 'P') b.active = pc := by rw [hpg, hfp]
  have hcont : b.board.contains (formatPiece (m.piece.getD 'P') b.active) = true := by
    rw [hpieceeq]
    exact List.elem_eq_true_of_mem hpcb
  have hgetf : b.get sq = formatPiece (m.piece.getD 'P') b.active := by rw [hpieceeq, hpc]
  have hdssm : b.disambiguateSourceSquares m = [sq] :=
    dss_fullname hsrc hdest hsqv hdv hcont hgetf
  obtain ⟨hdis, hcanon⟩ := canonical_compute hscast hdest hdv hdssm rfl
  generalize hMF : ({ m with
      src := some sq.name,
      capture := (if b.get d ≠ '.' then some 'x'
                  else if m.piece = none ∧ b.enPassant = some d then some 'x'
                  else m.capture) } : Move) = mf0 at hcanon
  have hmf0c : mf0.castling = none := by rw [← hMF]; exact hscast
  have hmf0p : mf0.piece = m.piece := by rw [← hMF]
  have hmf0s : mf0.src = some sq.name := by rw [← hMF]
  have hmf0d : mf0.dest = some d.name := by rw [← hMF]; exact hdest
  have hmf0pr : mf0.promotion = m.promotion := by rw [← hMF]
  have hmf0cap : mf0.capture =
      (if b.get d ≠ '.' then some 'x'
       else if m.piece = none ∧ b.enPassant = some d then some 'x'
       else m.capture) := by rw [← hMF]
  generalize hr : b.minimizeSrc mf0
      [none, some (⟨[FILES.getD sq.file '?']⟩ : String),
       some (⟨[RANKS.getD sq.rank '?']⟩ : String), some sq.name] (some sq.name) = r at hcanon
  have hpvar : ∀ x : Option String, ({ mf0 with src := x } : Move).piece.getD 'P' = pc.toUpper := by
    intro x
    show mf0.piece.getD 'P' = _
    rw [hmf0p, hpg]
  have hcontvar : ∀ x : Option String,
      b.board.contains (formatPiece (({ mf0 with src := x } : Move).piece.getD 'P') b.active)
        = true := by
    intro x
    rw [hpvar, hfp]
    exact List.elem_eq_true_of_mem hpcb
  have hgetvar : ∀ x : Option String,
      b.get sq = formatPiece (({ mf0 with src := x } : Move).piece.getD 'P') b.active := by
    intro x
    rw [hpvar, hfp, hpc]
  have hkey : b.disambiguateSourceSquares { mf0 with src := r } = [sq] := by
    rw [minimizeSrc_quad] at hr
    by_cases h1 : ¬ (mf0.piece = none ∧ mf0.capture ≠ none) ∧
        b.isLegalMove { mf0 with src := (none : Option String) } = true
    · rw [if_pos h1] at hr
      subst hr
      obtain ⟨s0, hs0, -, -⟩ := isLegalMove_dss_singleton
        (show ({ mf0 with src := (none : Option String) } : Move).castling = none from hmf0c)
        (show ({ mf0 with src := (none : Option String) } : Move).dest = some d.name from hmf0d)
        hdv h1.2
      have hmem : sq ∈ b.disambiguateSourceSquares
          { mf0 with src := (none : Option String) } :=
        dss_none_mem rfl
          (show ({ mf0 with src := (none : Option String) } : Move).dest = some d.name from hmf0d)
          hsqv hdv (hcontvar none) (hgetvar none) hd
      rw [hs0] at hmem
      simp only [List.mem_singleton] at hmem
      rw [← hmem] at hs0
      exact hs0
    · rw [if_neg h1] at hr
      by_cases h2 : b.isLegalMove
          { mf0 with src := some (⟨[FILES.getD sq.file '?']⟩ : String) } = true
      · rw [if_pos h2] at hr
        subst hr
        obtain ⟨s0, hs0, -, -⟩ := isLegalMove_dss_singleton
          (show ({ mf0 with src := some (⟨[FILES.getD sq.file '?']⟩ : String) } : Move).castling
            = none from hmf0c)
          (show ({ mf0 with src := some (⟨[FILES.getD sq.file '?']⟩ : String) } : Move).dest
            = some d.name from hmf0d)
          hdv h2
        have hmem : sq ∈ b.disambiguateSourceSquares
            { mf0 with src := some (⟨[FILES.getD sq.file '?']⟩ : String) } :=
          dss_filechar_mem rfl
            (show ({ mf0 with src := some (⟨[FILES.getD sq.file '?']⟩ : String) } : Move).dest
              = some d.name from hmf0d)
            hsqv hdv (hcontvar _) (hgetvar _) hd
        rw [hs0] at hmem
        simp only [List.mem_singleton] at hmem
        rw [← hmem] at hs0
        exact hs0
      · rw [if_neg h2] at hr
        by_cases h3 : b.isLegalMove
            { mf0 with src := some (⟨[RANKS.getD sq.rank '?']⟩ : String) } = true
        · rw [if_pos h3] at hr
          subst hr
          obtain ⟨s0, hs0, -, -⟩ := isLegalMove_dss_singleton
            (show ({ mf0 with src := some (⟨[RANKS.getD sq.rank '?']⟩ : String) } : Move).castling
              = none from hmf0c)
            (show ({ mf0 with src := some (⟨[RANKS.getD sq.rank '?']⟩ : String) } : Move).dest
              = some d.name from hmf0d)
            hdv h3
          have hmem : sq ∈ b.disambiguateSourceSquares
              { mf0 with src := some (⟨[RANKS.getD sq.rank '?']⟩ : String) } :=
            dss_rankchar_mem rfl
              (show ({ mf0 with src := some (⟨[RANKS.getD sq.rank '?']⟩ : String) } : Move).dest
                = some d.name from hmf0d)
              hsqv hdv (hcontvar _) (hgetvar _) hd
          rw [hs0] at hmem
          simp only [List.mem_singleton] at hmem
          rw [← hmem] at hs0
          exact hs0
        · rw [if_neg h3] at hr
          subst hr
          rw [dss_eq_of_core
            (show ({ mf0 with src := some sq.name } : Move).piece = m.piece from hmf0p)
            (show ({ mf0 with src := some sq.name } : Move).src = m.src from hsrc.symm)
            (show ({ mf0 with src := some sq.name } : Move).dest = m.dest from by
              show mf0.dest = m.dest
              rw [hmf0d, hdest])]
          exact hdssm
  have hmf2 : ({ ({ mf0 with src := r } : Move) with
      src := some sq.name,
      capture := (if b.get d ≠ '.' then some 'x'
                  else if ({ mf0 with src := r } : Move).piece = none ∧
                      b.enPassant = some d then some 'x'
                  else ({ mf0 with src := r } : Move).capture) } : Move) = mf0 := by
    obtain ⟨mc, mcap, mp, ms, md, mpr⟩ := mf0
    dsimp only at hmf0s hmf0cap hmf0p ⊢
    subst hmf0s
    subst hmf0p
    subst hmf0cap
    congr 1
    by_cases hocc : b.get d ≠ '.' <;>
      by_cases hep : m.piece = none ∧ b.enPassant = some d <;>
      simp [hocc, hep]
  obtain ⟨-, hcanon2⟩ := canonical_compute
    (show ({ mf0 with src := r } : Move).castling = none from hmf0c)
    (show ({ mf0 with src := r } : Move).dest = some d.name from hmf0d)
    hdv hkey hmf2.symm
  rw [hr] at hcanon2
  exact ⟨{ mf0 with src := r }, hcanon, hcanon2, hmf0c,
    (show ({ mf0 with src := r } : Move).piece = m.piece from hmf0p),
    (show ({ mf0 with src := r } : Move).dest = m.dest from by
      show mf0.dest = m.dest
      rw [hmf0d, hdest]),
    (show ({ mf0 with src := r } : Move).promotion = m.promotion from hmf0pr),
    hkey⟩


theorem getD_mem_of_lt {l : List Char} {i : Nat} (hi : i < l.length) :
    l.getD i '.' ∈ l := by
  rw [List.getD_eq_getElem?_getD, List.getElem?_eq_getElem hi]
  exact List.getElem_mem hi

theorem getAllLegalMoves_shape {b : Board} {m : Move}
    (h : m ∈ b.getAllLegalMoves) :
    (m = parseMove "0-0" ∨ m = parseMove "0-0-0") ∨
    ∃ i d, i < 64 ∧
      getPieceOwner (b.board.getD i '.') = some b.active ∧
      d ∈ b.legalMoves (squareOfIndex i) ∧
      m = { piece := if (b.board.getD i '.').toUpper = 'P' then none
                     else some (b.board.getD i '.').toUpper,
            src := some (squareOfIndex i).name,
            dest := some d.name, promotion := m.promotion } := by
  unfold Board.getAllLegalMoves at h
  rcases List.mem_append.mp h with h | h
  · left
    obtain ⟨cstr, hcs, hif⟩ := List.mem_filterMap.mp h
    split at hif
    · injection hif with hif
      subst hif
      have : cstr = "0-0" ∨ cstr = "0-0-0" := by simpa [CASTLINGS] using hcs
      rcases this with rfl | rfl
      · exact Or.inl rfl
      · exact Or.inr rfl
    · cases hif
  · right
    obtain ⟨i, hi, hmem⟩ := List.mem_flatMap.mp h
    rw [List.mem_range] at hi
    dsimp only at hmem
    split at hmem
    · cases hmem
    · next howner =>
      push_neg at howner
      by_cases hpu : (b.board.getD i '.').toUpper = 'P'
      · rw [if_pos hpu] at hmem
        by_cases hpr : (squareOfIndex i).rank = pawnRank (getOpponent b.active)
        · rw [if_pos (show (none : Option Char) = none ∧ _ from ⟨rfl, hpr⟩)] at hmem
          obtain ⟨s, hs, hmm⟩ := List.mem_flatMap.mp hmem
          obtain ⟨promo, -, heq⟩ := List.mem_map.mp hmm
          refine ⟨i, s, hi, howner, hs, ?_⟩
          rw [← heq, if_pos hpu]
        · rw [if_neg (by simp [hpr])] at hmem
          obtain ⟨s, hs, heq⟩ := List.mem_map.mp hmem
          refine ⟨i, s, hi, howner, hs, ?_⟩
          rw [← heq, if_pos hpu]
      · rw [if_neg hpu] at hmem
        rw [if_neg (by simp)] at hmem
        obtain ⟨s, hs, heq⟩ := List.mem_map.mp hmem
        refine ⟨i, s, hi, howner, hs, ?_⟩
        rw [← heq, if_neg hpu]

theorem canonical_castling_move (b : Board) (cs : String) :
    b.getMoveCanonicalForm { castling := some cs } = some { castling := some cs } := rfl

theorem parseMove_castles :
    parseMove "0-0" = { castling := some "0-0" } ∧
    parseMove "0-0-0" = { castling := some "0-0-0" } := by
  constructor <;> decide


/-- C8 (amended): on the moves the engine itself enumerates (get_all_legal_moves
of a well-formed board), canonicalisation is total and idempotent - the
canonical form exists and canonicalising it again returns it unchanged - and it
is injective: two enumerated moves with the same canonical form are the same
move.  (Unrestricted Move values break the original claim: distinct legal Move
values can denote the same move and share a canonical form.) -/
theorem c8_canonical_amended (b : Board) (m m1 m2 : Move)
    (hwf : b.wellFormed)
    (hm : m ∈ b.getAllLegalMoves)
    (hm1 : m1 ∈ b.getAllLegalMoves) (hm2 : m2 ∈ b.getAllLegalMoves)
    (heq : b.getMoveCanonicalForm m1 = b.getMoveCanonicalForm m2) :
    (∃ c, b.getMoveCanonicalForm m = some c ∧ b.getMoveCanonicalForm c = some c) ∧
    m1 = m2 := by
  obtain ⟨hlen64, hcells, -⟩ := hwf
  have pack : ∀ mm ∈ b.getAllLegalMoves,
      (∃ cs, mm = { castling := some cs } ∧ b.getMoveCanonicalForm mm = some mm) ∨
      (∃ i d c, i < 64 ∧
        d ∈ b.legalMoves (squareOfIndex i) ∧
        mm = { piece := if (b.board.getD i '.').toUpper = 'P' then none
                        else some (b.board.getD i '.').toUpper,
               src := some (squareOfIndex i).name,
               dest := some d.name, promotion := mm.promotion } ∧
        b.getMoveCanonicalForm mm = some c ∧
        b.getMoveCanonicalForm c = some c ∧
        c.castling = none ∧ c.dest = mm.dest ∧ c.promotion = mm.promotion ∧
        b.disambiguateSourceSquares c = [squareOfIndex i]) := by
    intro mm hmm
    rcases getAllLegalMoves_shape hmm with (rfl | rfl) | ⟨i, d, hi, howner, hd, hrec⟩
    · left
      exact ⟨"0-0", parseMove_castles.1,
        by rw [parseMove_castles.1]; exact canonical_castling_move b "0-0"⟩
    · left
      exact ⟨"0-0-0", parseMove_castles.2,
        by rw [parseMove_castles.2]; exact canonical_castling_move b "0-0-0"⟩
    · right
      have hpc : b.get (squareOfIndex i) = b.board.getD i '.' := get_squareOfIndex b i
      have hpcb : b.board.getD i '.' ∈ b.board := getD_mem_of_lt (by omega)
      have hpcd : b.board.getD i '.' ≠ '.' := owner_ne_dot howner
      have hpcmem : b.board.getD i '.' ∈ "RNBQKPrnbqkp".toList := by
        rcases List.mem_cons.mp (hcells _ hpcb) with h3 | h3
        · exact absurd h3 hpcd
        · exact h3
      obtain ⟨c, hc1, hc2, hc3, -, hc5, hc6, hc7⟩ :=
        canonical_member hpc hpcb (squareOfIndex_valid hi) hpcmem howner hd hrec
      exact ⟨i, d, c, hi, hd, hrec, hc1, hc2, hc3, hc5, hc6, hc7⟩
  constructor
  · rcases pack m hm with ⟨cs, hmeq, hcan⟩ | ⟨i, d, c, -, -, -, hc1, hc2, -⟩
    · exact ⟨m, hcan, hcan⟩
    · exact ⟨c, hc1, hc2⟩
  · rcases pack m1 hm1 with ⟨cs1, hm1eq, hcan1⟩ |
        ⟨i1, d1, c1, hi1, hd1, hrec1, hc11, hc12, hc13, hc15, hc16, hc17⟩ <;>
      rcases pack m2 hm2 with ⟨cs2, hm2eq, hcan2⟩ |
        ⟨i2, d2, c2, hi2, hd2, hrec2, hc21, hc22, hc23, hc25, hc26, hc27⟩
    · rw [hcan1, hcan2] at heq
      injection heq
    · rw [hcan1, hc21] at heq
      injection heq with h
      exfalso
      rw [hm1eq] at h
      rw [← h] at hc23
      exact Option.noConfusion hc23
    · rw [hc11, hcan2] at heq
      injection heq with h
      exfalso
      rw [hm2eq] at h
      rw [h] at hc13
      exact Option.noConfusion hc13
    · rw [hc11, hc21] at heq
      injection heq with h
      subst h
      rw [hc17] at hc27
      injection hc27 with hsq htl
      have hieq : i1 = i2 := squareOfIndex_inj hsq
      subst hieq
      have hdest1 : m1.dest = some d1.name := by rw [hrec1]
      have hdest2 : m2.dest = some d2.name := by rw [hrec2]
      have hdd : some d1.name = some d2.name := by
        rw [← hdest1, ← hdest2, ← hc15, ← hc25]
      injection hdd with hdd
      have hpr : m1.promotion = m2.promotion := by rw [← hc16, ← hc26]
      rw [hrec1, hrec2, hdd, hpr]


theorem c8_canonical_amended_witness :
    (boardOf "k7/8/8/8/8/8/8/7K w - - 0 1").wellFormed ∧
    ({ piece := some 'K', src := some "h1", dest := some "h2" } : Move)
        ∈ (boardOf "k7/8/8/8/8/8/8/7K w - - 0 1").getAllLegalMoves ∧
    ((∃ c, (boardOf "k7/8/8/8/8/8/8/7K w - - 0 1").getMoveCanonicalForm
          { piece := some 'K', src := some "h1", dest := some "h2" } = some c ∧
        (boardOf "k7/8/8/8/8/8/8/7K w - - 0 1").getMoveCanonicalForm c = some c) ∧
      ({ piece := some 'K', src := some "h1", dest := some "h2" } : Move) =
        { piece := some 'K', src := some "h1", dest := some "h2" }) :=
  ⟨by decide, by decide,
   c8_canonical_amended _ _ _ _ (by decide) (by decide) (by decide) (by decide) rfl⟩

end Chess
